import Mathlib

/-!
# Loss functions of `mlpack/methods/ann/loss_functions`

A shallow embedding of `SquaredHingeLoss`, `HingeEmbeddingLoss` and
`NegativeLogLikelihood` (their `Forward` and `Backward` members) together with
the part of the dense matrix interface they use.

Conventions of the embedding.

* A dense matrix is its two sides and its element buffer in column-major
  order, as in Armadillo: element `(r, c)` lives at offset `r + c * n_rows`.
* `elem_type` is `ℚ`: exact arithmetic, every finite value the code handles.
  The one operation of these files that can leave the finite values is the
  division by an element count that is zero; its result is `none`
  (`0.0 / 0` is NaN, `x / 0` is an infinity), so a scalar result is an
  `Option ℚ`.
* An operation that throws returns `Except.error` with the `Fault` raised:
  a failed `Log::Assert`, an element access outside the matrix, or an
  element-wise operation on matrices of different sizes.
* `size_t currentTarget = target(i)` is the conversion of an integer class
  label to a 64-bit unsigned word, `z % 2 ^ 64`.
* `arma::max(X, 0.)` is Armadillo's `max(X, dim)` with `dim = 0`, the maxima of the
  columns of `X`: the library has no maximum of a matrix and a scalar.
-/

namespace mlpack

/-- The ways in which a call can fail instead of returning. -/
inductive Fault where
  /-- A `Log::Assert` whose condition is false, with its message. -/
  | assertFailed (msg : String)
  /-- An element access `M(i)` or `M(r, c)` outside the matrix. -/
  | outOfBounds
  /-- An element-wise operation on two matrices of different sizes. -/
  | sizeMismatch
deriving DecidableEq

/-- Dense matrix: sides and column-major element buffer. -/
structure Mat (α : Type) where
  n_rows : Nat
  n_cols : Nat
  mem : List α
deriving DecidableEq

namespace Mat

variable {α β γ : Type}

/-- Armadillo `n_elem`: the number of elements, `n_rows * n_cols`. -/
def n_elem (M : Mat α) : Nat := M.n_rows * M.n_cols

/-- The buffer holds exactly `n_elem` elements, and the element count is
addressable on a 64-bit machine. -/
def wf (M : Mat α) : Prop :=
  M.mem.length = M.n_rows * M.n_cols ∧ M.n_rows * M.n_cols < 2 ^ 63

instance (M : Mat α) : Decidable M.wf :=
  inferInstanceAs (Decidable (_ ∧ _))

/-- Two matrices have the same number of rows and of columns. -/
def sameShape (A : Mat α) (B : Mat β) : Prop :=
  A.n_rows = B.n_rows ∧ A.n_cols = B.n_cols

instance (A : Mat α) (B : Mat β) : Decidable (sameShape A B) :=
  inferInstanceAs (Decidable (_ ∧ _))

/-- An element-wise operation with a scalar (`1 - A`, `A / 2`, `A == 0`, `-A`). -/
def map (f : α → β) (A : Mat α) : Mat β :=
  ⟨A.n_rows, A.n_cols, A.mem.map f⟩

/-- An element-wise operation of two matrices (`A - B`, `A % B`, `A < B`):
Armadillo throws when the sizes differ. -/
def zipWith (f : α → β → γ) (A : Mat α) (B : Mat β) : Except Fault (Mat γ) :=
  if A.n_rows = B.n_rows ∧ A.n_cols = B.n_cols then
    .ok ⟨A.n_rows, A.n_cols, List.zipWith f A.mem B.mem⟩
  else
    .error .sizeMismatch

/-- The sum of all elements, `arma::accu`. -/
def accu (A : Mat ℚ) : ℚ := A.mem.sum

/-- The matrix of zeros of the given sides, `M.zeros(size(X))`. -/
def zeros (r c : Nat) : Mat ℚ := ⟨r, c, List.replicate (r * c) 0⟩

/-- Read `M(i)`: linear element access, bounds-checked. -/
def get1 (M : Mat α) (i : Nat) : Except Fault α :=
  if i < M.n_elem then
    match M.mem[i]? with
    | some x => .ok x
    | none => .error .outOfBounds
  else .error .outOfBounds

/-- Read `M(r, c)`: two-index element access, bounds-checked. -/
def get2 (M : Mat α) (r c : Nat) : Except Fault α :=
  if r < M.n_rows ∧ c < M.n_cols then
    match M.mem[r + c * M.n_rows]? with
    | some x => .ok x
    | none => .error .outOfBounds
  else .error .outOfBounds

/-- Write `M(i) = v`: linear element access, bounds-checked. -/
def set1 (M : Mat α) (i : Nat) (v : α) : Except Fault (Mat α) :=
  if i < M.n_elem then .ok ⟨M.n_rows, M.n_cols, M.mem.set i v⟩
  else .error .outOfBounds

/-- Write `M(r, c) = v`: two-index element access, bounds-checked. -/
def set2 (M : Mat α) (r c : Nat) (v : α) : Except Fault (Mat α) :=
  if r < M.n_rows ∧ c < M.n_cols then
    .ok ⟨M.n_rows, M.n_cols, M.mem.set (r + c * M.n_rows) v⟩
  else .error .outOfBounds

/-- Element `k` of the buffer (the default value outside it). -/
def el [Inhabited α] (M : Mat α) (k : Nat) : α := M.mem.getD k default

/-- Element `(r, c)`: offset `r + c * n_rows` of the column-major buffer. -/
def el2 [Inhabited α] (M : Mat α) (r c : Nat) : α := M.el (r + c * M.n_rows)

/-- The buffer with `h` added to the element at offset `k`. -/
def addAtList : List ℚ → Nat → ℚ → List ℚ
  | [], _, _ => []
  | x :: xs, 0, h => (x + h) :: xs
  | x :: xs, k + 1, h => x :: addAtList xs k h

/-- The matrix `M + h * e_k`, where `e_k` is 1 at offset `k` and 0 elsewhere. -/
def addAt (M : Mat ℚ) (k : Nat) (h : ℚ) : Mat ℚ :=
  ⟨M.n_rows, M.n_cols, addAtList M.mem k h⟩

/-- Column `c` of the matrix: `n_rows` consecutive elements of the column-major
buffer, from offset `c * n_rows`. -/
def column (M : Mat α) (c : Nat) : List α :=
  (M.mem.drop (c * M.n_rows)).take M.n_rows

/-- The maximum of the elements of a list (0 for the empty list). -/
def listMax : List ℚ → ℚ
  | [] => 0
  | x :: xs => xs.foldl max x

/-- The call `arma::max(X, 0.)`. Armadillo has no maximum of a matrix and a scalar:
its overloads are `max(X, dim)` and `max(A, B)` on two matrices, so the scalar second
argument is taken as `dim = 0` and the result is the row vector of the maxima of
the columns of `X` (a matrix without rows gives a matrix without rows). -/
def maxOfColumns (M : Mat ℚ) : Mat ℚ :=
  if M.n_rows = 0 then ⟨0, M.n_cols, []⟩
  else ⟨1, M.n_cols, (List.range M.n_cols).map (fun c => listMax (M.column c))⟩

end Mat

/-- The quotient of a value by an element count: not a finite number when the
count is zero. -/
def divCount (x : ℚ) (n : Nat) : Option ℚ :=
  if n = 0 then none else some (x / (n : ℚ))

/-- Modelled from the spec: `Log::Assert(condition, message)`, whose definition
is not among the sources. Per the specification the bounds check is a fatal
assertion that aborts the call on an invalid class index: a false condition
fails with the message, a true one does nothing. -/
def Log.Assert (condition : Bool) (message : String) : Except Fault Unit :=
  if condition then .ok () else .error (.assertFailed message)

/-- The conversion `size_t currentTarget = target(i)` of an integer label. -/
def toSizeT (z : Int) : Nat := (z % 2 ^ 64).toNat

/-! ## SquaredHingeLoss -/

/-- The state of a `SquaredHingeLoss` object: the locally stored output
parameter, its only data member. -/
structure SquaredHingeLoss where
  outputParameter : Mat ℚ

namespace SquaredHingeLoss

/-- The constructor `SquaredHingeLoss()`: nothing to do. -/
def new : SquaredHingeLoss := ⟨⟨0, 0, []⟩⟩

/-- The local `temp = target - (target == 0)`. -/
def temp (target : Mat ℚ) : Except Fault (Mat ℚ) :=
  Mat.zipWith (fun t z => t - z) target
    (target.map (fun t => if t = 0 then (1 : ℚ) else 0))

/-- `SquaredHingeLoss::Forward`:
`accu(square(max(1 - prediction % temp, 0.))) / target.n_elem`, where
`max(X, 0.)` is the maximum of each column of `X`, see `Mat.maxOfColumns`. -/
def Forward (_self : SquaredHingeLoss) (prediction target : Mat ℚ) :
    Except Fault (Option ℚ) := do
  let temp ← temp target
  let prod ← Mat.zipWith (fun p t => p * t) prediction temp
  let hinge := (prod.map (fun x => 1 - x)).maxOfColumns
  let sq := hinge.map (fun x => x ^ 2)
  return divCount sq.accu target.n_elem

/-- `SquaredHingeLoss::Backward`: `loss = (prediction < 1 / temp) % -temp`. -/
def Backward (_self : SquaredHingeLoss) (prediction target : Mat ℚ) :
    Except Fault (Mat ℚ) := do
  let temp ← temp target
  let inv := temp.map (fun t => 1 / t)
  let cmp ← Mat.zipWith (fun p q => if p < q then (1 : ℚ) else 0) prediction inv
  Mat.zipWith (fun b t => b * t) cmp (temp.map (fun t => -t))

end SquaredHingeLoss

/-! ## HingeEmbeddingLoss -/

/-- The state of a `HingeEmbeddingLoss` object set by its constructor. -/
structure HingeEmbeddingLoss where
  reduction : Bool

namespace HingeEmbeddingLoss

/-- `HingeEmbeddingLoss::Forward`:
`loss = (1 - target) / 2 + input % target`, summed, and divided by
`input.n_elem` when `reduction` is false. -/
def Forward (self : HingeEmbeddingLoss) (input target : Mat ℚ) :
    Except Fault (Option ℚ) := do
  let half := (target.map (fun t => 1 - t)).map (fun x => x / 2)
  let prod ← Mat.zipWith (fun x t => x * t) input target
  let loss ← Mat.zipWith (fun a b => a + b) half prod
  let lossSum := loss.accu
  if self.reduction then
    return some lossSum
  return divCount lossSum input.n_elem

/-- `HingeEmbeddingLoss::Backward`: `output = target`, divided element-wise by
`input.n_elem` when `reduction` is false. -/
def Backward (self : HingeEmbeddingLoss) (input target : Mat ℚ) :
    Except Fault (Mat (Option ℚ)) :=
  let output := target
  if !self.reduction then
    .ok (output.map (fun x => divCount x input.n_elem))
  else
    .ok (output.map some)

end HingeEmbeddingLoss

/-! ## NegativeLogLikelihood -/

/-- The state of a `NegativeLogLikelihood` object. -/
structure NegativeLogLikelihood where
  delta : Mat ℚ
  inputParameter : Mat ℚ
  outputParameter : Mat ℚ
  reduction : Bool

namespace NegativeLogLikelihood

/-- The default of the constructor argument: `const bool reduction = true`. -/
def defaultReduction : Bool := true

/-- The constructor `NegativeLogLikelihood(reduction)`. -/
def new (reduction : Bool) : NegativeLogLikelihood :=
  ⟨⟨0, 0, []⟩, ⟨0, 0, []⟩, ⟨0, 0, []⟩, reduction⟩

/-- The loop of `Forward` over the columns `i` still to visit:
assert the class index, then `loss(i) = -prediction(i, currentTarget)`. -/
def forwardLoop (prediction : Mat ℚ) (target : Mat Int) :
    List Nat → Mat ℚ → Except Fault (Mat ℚ)
  | [], loss => .ok loss
  | i :: rest, loss => do
    let t ← target.get1 i
    let currentTarget := toSizeT t
    Log.Assert (decide (0 ≤ currentTarget) && decide (currentTarget < prediction.n_cols))
      "Target class out of range."
    let p ← prediction.get2 i currentTarget
    let loss ← loss.set1 i (-p)
    forwardLoop prediction target rest loss

/-- `NegativeLogLikelihood::Forward`. -/
def Forward (self : NegativeLogLikelihood) (prediction : Mat ℚ) (target : Mat Int) :
    Except Fault (Option ℚ) := do
  let loss ← forwardLoop prediction target (List.range target.n_cols)
    (Mat.zeros target.n_rows target.n_cols)
  let lossSum := loss.accu
  if self.reduction then
    return some lossSum
  return divCount lossSum target.n_elem

/-- The loop of `Backward` over the columns `i` still to visit:
assert the class index, then `loss(i, currentTarget) = -1`. -/
def backwardLoop (prediction : Mat ℚ) (target : Mat Int) :
    List Nat → Mat ℚ → Except Fault (Mat ℚ)
  | [], loss => .ok loss
  | i :: rest, loss => do
    let t ← target.get1 i
    let currentTarget := toSizeT t
    Log.Assert (decide (0 ≤ currentTarget) && decide (currentTarget < prediction.n_cols))
      "Target class out of range."
    let loss ← loss.set2 i currentTarget (-1)
    backwardLoop prediction target rest loss

/-- `NegativeLogLikelihood::Backward`. -/
def Backward (self : NegativeLogLikelihood) (prediction : Mat ℚ) (target : Mat Int) :
    Except Fault (Mat (Option ℚ)) := do
  let loss ← backwardLoop prediction target (List.range target.n_cols)
    (Mat.zeros prediction.n_rows prediction.n_cols)
  if !self.reduction then
    return loss.map (fun x => divCount x target.n_elem)
  return loss.map some

end NegativeLogLikelihood

/-! ## Reference quantities used in the statements -/

/-- The buffer of the local `loss` of `HingeEmbeddingLoss::Forward`:
the element-wise value `(1 - t) / 2 + x * t`. -/
def hingeEmbeddingTerms (xs ts : List ℚ) : List ℚ :=
  List.zipWith (fun a b => a + b)
    (List.map (fun x => x / 2) (List.map (fun t => 1 - t) ts))
    (List.zipWith (fun x t => x * t) xs ts)

/-- The value `t - (t == 0)` of an entry of the local `temp` of `SquaredHingeLoss`. -/
def tempEntry (t : ℚ) : ℚ := t - (if t = 0 then 1 else 0)

/-- The sum named by the specification: `max(1 - p_i * t_i, 0) ^ 2` over all
elements, not divided. -/
def squaredHingeSum (prediction target : Mat ℚ) : ℚ :=
  ∑ k in Finset.range prediction.n_elem, (max (1 - prediction.el k * target.el k) 0) ^ 2

/-- The gradient entry named by the specification: the partial derivative of the
mean squared hinge loss, `-2 * t_i * max(1 - p_i * t_i, 0) / n`. -/
def squaredHingeGradient (prediction target : Mat ℚ) (k : Nat) : ℚ :=
  -2 * target.el k * max (1 - prediction.el k * target.el k) 0 / (prediction.n_elem : ℚ)

/-- Writing `w (g i)` at offset `g i` of a buffer for each `i` of a list, in order:
the effect of a loop of element assignments. -/
def writeAll (g : Nat → Nat) (w : Nat → ℚ) (is : List Nat) (mem : List ℚ) : List ℚ :=
  is.foldl (fun mem i => mem.set (g i) (w (g i))) mem

/-! ## Calls on a caller-supplied output buffer -/

/-- The call `SquaredHingeLoss::Backward(prediction, target, loss)` on the caller's
buffer `loss`: the body is the single assignment `loss = ...`, which replaces the
sides and the contents the buffer had. -/
def SquaredHingeLoss.BackwardInto (self : SquaredHingeLoss) (prediction target : Mat ℚ)
    (_loss : Mat ℚ) : Except Fault (Mat ℚ) :=
  self.Backward prediction target

/-- The call `HingeEmbeddingLoss::Backward(input, target, output)` on the caller's
buffer `output`: the body starts with the assignment `output = target`, which
replaces the sides and the contents the buffer had. -/
def HingeEmbeddingLoss.BackwardInto (self : HingeEmbeddingLoss) (input target : Mat ℚ)
    (_output : Mat (Option ℚ)) : Except Fault (Mat (Option ℚ)) :=
  self.Backward input target

/-- The call `NegativeLogLikelihood::Backward(prediction, target, loss)` on the
caller's buffer `loss`: the body starts with `loss.zeros(size(prediction))`, which
replaces the sides and the contents the buffer had. -/
def NegativeLogLikelihood.BackwardInto (self : NegativeLogLikelihood)
    (prediction : Mat ℚ) (target : Mat Int) (_loss : Mat (Option ℚ)) :
    Except Fault (Mat (Option ℚ)) :=
  self.Backward prediction target

/-- The label matrix with every entry equal to 0 replaced by -1. -/
def zeroToMinusOne (target : Mat ℚ) : Mat ℚ :=
  target.map (fun t => if t = 0 then -1 else t)

/-- The unclamped sum of the claim about `HingeEmbeddingLoss::Forward`: `x_i` over
the elements with `t_i = +1` plus `1 - x_i` over the elements with `t_i = -1`. -/
def hingeEmbeddingSplitSum (input target : Mat ℚ) : ℚ :=
  (∑ k in (Finset.range input.n_elem).filter (fun k => target.el k = 1), input.el k)
    + (∑ k in (Finset.range input.n_elem).filter (fun k => target.el k = -1),
        (1 - input.el k))

/-! ## Auxiliary lemmas: buffers and sums -/

theorem addAtList_length (xs : List ℚ) (k : Nat) (h : ℚ) :
    (Mat.addAtList xs k h).length = xs.length := by
  induction xs generalizing k with
  | nil => simp [Mat.addAtList]
  | cons x xs ih => cases k <;> simp [Mat.addAtList, ih]

theorem addAtList_getD (xs : List ℚ) (k : Nat) (h : ℚ) (j : Nat) (hk : k < xs.length) :
    (Mat.addAtList xs k h).getD j 0 = xs.getD j 0 + (if j = k then h else 0) := by
  induction xs generalizing k j with
  | nil => simp at hk
  | cons x xs ih =>
    cases k with
    | zero =>
      cases j with
      | zero => simp [Mat.addAtList]
      | succ j => simp [Mat.addAtList]
    | succ k =>
      cases j with
      | zero => simp [Mat.addAtList]
      | succ j =>
        simp only [List.length_cons, Nat.add_lt_add_iff_right] at hk
        simp only [Mat.addAtList, List.getD_cons_succ, ih k j hk, Nat.add_right_cancel_iff]

theorem list_sum_eq_sum_range (L : List ℚ) :
    L.sum = ∑ k in Finset.range L.length, L.getD k 0 := by
  induction L with
  | nil => simp
  | cons x xs ih =>
    rw [List.length_cons, Finset.sum_range_succ', List.sum_cons, ih]
    simp [add_comm]

theorem zipWith_getD (f : ℚ → ℚ → ℚ) (ps ts : List ℚ) (k : Nat)
    (hp : k < ps.length) (ht : k < ts.length) :
    (List.zipWith f ps ts).getD k 0 = f (ps.getD k 0) (ts.getD k 0) := by
  simp [List.getD_eq_getElem?_getD, List.getElem?_eq_getElem, hp, ht]

theorem writeAll_length (g : Nat → Nat) (w : Nat → ℚ) (is : List Nat) (mem : List ℚ) :
    (writeAll g w is mem).length = mem.length := by
  induction is generalizing mem with
  | nil => rfl
  | cons i is ih => simp [writeAll, List.foldl_cons] at ih ⊢; rw [ih]; simp

theorem writeAll_getElem? (g : Nat → Nat) (w : Nat → ℚ) (is : List Nat) (mem : List ℚ)
    (j : Nat) (hj : j < mem.length) :
    (writeAll g w is mem)[j]? = if j ∈ is.map g then some (w j) else mem[j]? := by
  induction is generalizing mem with
  | nil => simp [writeAll]
  | cons i is ih =>
    have hlen : (mem.set (g i) (w (g i))).length = mem.length := by simp
    have := ih (mem.set (g i) (w (g i))) (by rw [hlen]; exact hj)
    simp only [writeAll, List.foldl_cons] at this ⊢
    rw [this]
    by_cases h1 : j ∈ is.map g
    · simp [h1]
    · by_cases h2 : g i = j
      · subst h2
        simp [h1, hj]
      · have h3 : ¬ j = g i := fun h => h2 h.symm
        simp [h1, h2, h3, List.getElem?_set]

theorem offset_lt (n_rows n_cols r c : Nat) (hr : r < n_rows) (hc : c < n_cols) :
    r + c * n_rows < n_rows * n_cols := by
  have h1 : (c + 1) * n_rows ≤ n_cols * n_rows := Nat.mul_le_mul_right _ hc
  have h2 : (c + 1) * n_rows = c * n_rows + n_rows := by ring
  have h3 : n_cols * n_rows = n_rows * n_cols := Nat.mul_comm _ _
  omega

theorem offset_inj (n i r a c : Nat) (hi : i < n) (hr : r < n)
    (h : i + a * n = r + c * n) : i = r ∧ a = c := by
  have h1 : (i + a * n) % n = (r + c * n) % n := by rw [h]
  rw [Nat.add_mul_mod_self_right, Nat.add_mul_mod_self_right, Nat.mod_eq_of_lt hi,
    Nat.mod_eq_of_lt hr] at h1
  subst h1
  have h2 : a * n = c * n := by omega
  exact ⟨rfl, Nat.eq_of_mul_eq_mul_right (by omega) h2⟩

theorem get1_ok {α : Type} [Inhabited α] (M : Mat α) (hwf : M.wf) (i : Nat)
    (hi : i < M.n_elem) : M.get1 i = .ok (M.el i) := by
  have hl : i < M.mem.length := by rw [hwf.1]; exact hi
  simp [Mat.get1, hi, Mat.el, List.getD_eq_getElem?_getD, List.getElem?_eq_getElem hl]

theorem get2_ok {α : Type} [Inhabited α] (M : Mat α) (hwf : M.wf) (r c : Nat)
    (hr : r < M.n_rows) (hc : c < M.n_cols) : M.get2 r c = .ok (M.el2 r c) := by
  have hl : r + c * M.n_rows < M.mem.length := by
    rw [hwf.1]; exact offset_lt _ _ _ _ hr hc
  simp [Mat.get2, hr, hc, Mat.el2, Mat.el, List.getD_eq_getElem?_getD,
    List.getElem?_eq_getElem hl]

theorem n_cols_lt_of_rows_pos {α : Type} (M : Mat α) (hwf : M.wf) (hrows : 0 < M.n_rows) :
    M.n_cols < 2 ^ 63 := by
  have := hwf.2
  calc M.n_cols = 1 * M.n_cols := by ring
    _ ≤ M.n_rows * M.n_cols := Nat.mul_le_mul_right _ hrows
    _ < 2 ^ 63 := this

theorem toSizeT_of_inRange (z : Int) (n : Nat) (hn : n < 2 ^ 63) (h0 : 0 ≤ z) (h1 : z < n) :
    toSizeT z = z.toNat ∧ z.toNat < n := by
  unfold toSizeT
  omega

theorem toSizeT_of_outOfRange (z : Int) (n : Nat) (hn : n < 2 ^ 63)
    (hlo : -(2 ^ 63) ≤ z) (hhi : z < 2 ^ 64) (h : z < 0 ∨ (n : Int) ≤ z) :
    ¬ toSizeT z < n := by
  unfold toSizeT
  omega

/-! ## Auxiliary lemmas: HingeEmbeddingLoss -/

theorem hingeEmbeddingTerms_addAt (xs ts : List ℚ) (k : Nat) (h : ℚ)
    (hk : k < xs.length) (hl : xs.length = ts.length) :
    (hingeEmbeddingTerms (Mat.addAtList xs k h) ts).sum - (hingeEmbeddingTerms xs ts).sum
      = h * ts.getD k 0 := by
  unfold hingeEmbeddingTerms
  induction xs generalizing ts k with
  | nil => simp at hk
  | cons x xs ih =>
    cases ts with
    | nil => simp at hl
    | cons t ts =>
      cases k with
      | zero => simp [Mat.addAtList]; ring
      | succ k =>
        simp only [List.length_cons, Nat.add_lt_add_iff_right, Nat.add_right_cancel_iff] at hk hl
        have := ih ts k hk hl
        simp only [Mat.addAtList, List.map_cons, List.zipWith_cons_cons, List.sum_cons,
          List.getD_cons_succ]
        linarith

theorem hingeEmbedding_Forward_eq (self : HingeEmbeddingLoss) (input target : Mat ℚ)
    (hs : input.sameShape target) :
    self.Forward input target =
      .ok (if self.reduction then some (hingeEmbeddingTerms input.mem target.mem).sum
        else divCount (hingeEmbeddingTerms input.mem target.mem).sum input.n_elem) := by
  obtain ⟨hr, hc⟩ := hs
  cases hred : self.reduction <;>
    simp [HingeEmbeddingLoss.Forward, Mat.zipWith, Mat.map, hr, hc, hred, bind,
      Except.bind, pure, Except.pure, Mat.accu, hingeEmbeddingTerms]

theorem hingeEmbedding_Backward_eq (self : HingeEmbeddingLoss) (input target : Mat ℚ) :
    self.Backward input target =
      .ok ⟨target.n_rows, target.n_cols,
        target.mem.map (fun x => if self.reduction then some x else divCount x input.n_elem)⟩ := by
  cases hred : self.reduction <;> simp [HingeEmbeddingLoss.Backward, hred, Mat.map]

/-! ## Auxiliary lemmas: SquaredHingeLoss -/

theorem tempList_eq (ts : List ℚ) :
    List.zipWith (fun t z => t - z) ts (ts.map (fun t => if t = 0 then (1 : ℚ) else 0))
      = ts.map tempEntry := by
  induction ts with
  | nil => rfl
  | cons t ts ih => simp [tempEntry, ih]

theorem squaredHinge_temp_eq (target : Mat ℚ) :
    SquaredHingeLoss.temp target
      = .ok ⟨target.n_rows, target.n_cols, target.mem.map tempEntry⟩ := by
  simp [SquaredHingeLoss.temp, Mat.zipWith, Mat.map, tempList_eq]

theorem squaredHingeTerms_eq (ps ts : List ℚ) :
    List.map (fun x => x ^ 2) (List.map (fun x => 1 - x)
        (List.zipWith (fun p t => p * t) ps (ts.map tempEntry)))
      = List.zipWith (fun p t => (1 - p * tempEntry t) ^ 2) ps ts := by
  induction ps generalizing ts with
  | nil => simp
  | cons p ps ih =>
    cases ts with
    | nil => simp
    | cons t ts => simpa using ih ts

theorem squaredHinge_Forward_eq (self : SquaredHingeLoss) (prediction target : Mat ℚ)
    (hs : prediction.sameShape target) :
    self.Forward prediction target =
      .ok (divCount
        ((Mat.maxOfColumns ⟨prediction.n_rows, prediction.n_cols,
          List.map (fun x => 1 - x)
            (List.zipWith (fun p t => p * t) prediction.mem
              (target.mem.map tempEntry))⟩).map (fun x => x ^ 2)).accu
        target.n_elem) := by
  obtain ⟨hr, hc⟩ := hs
  simp only [SquaredHingeLoss.Forward, squaredHinge_temp_eq, bind, Except.bind, pure,
    Except.pure, Mat.zipWith, hr, hc, and_self, if_true, Mat.map]

theorem listMax_singleton_of_drop (L : List ℚ) (c : Nat) (hc : c < L.length) :
    Mat.listMax ((L.drop (c * 1)).take 1) = L[c] := by
  rw [Nat.mul_one, List.drop_eq_getElem_cons hc]
  rfl

theorem maxOfColumns_one_row (M : Mat ℚ) (h1 : M.n_rows = 1)
    (hl : M.mem.length = M.n_cols) :
    M.maxOfColumns = ⟨1, M.n_cols, M.mem⟩ := by
  have hne : ¬ M.n_rows = 0 := by omega
  unfold Mat.maxOfColumns
  rw [if_neg hne]
  congr 1
  apply List.ext_getElem
  · simp [hl]
  · intro i hi1 hi2
    simp only [List.getElem_map, List.getElem_range, Mat.column, h1]
    exact listMax_singleton_of_drop M.mem i hi2

theorem squaredHinge_Forward_one_row (self : SquaredHingeLoss) (prediction target : Mat ℚ)
    (hp : prediction.wf) (ht : target.wf) (hs : prediction.sameShape target)
    (h1 : prediction.n_rows = 1) :
    self.Forward prediction target =
      .ok (divCount
        (∑ k in Finset.range prediction.n_elem,
          (1 - prediction.el k * tempEntry (target.el k)) ^ 2) target.n_elem) := by
  have hlp : prediction.mem.length = prediction.n_elem := hp.1
  have hlt : target.mem.length = prediction.n_elem := by
    rw [ht.1, Mat.n_elem, hs.1, hs.2]
  have hcols : prediction.n_elem = prediction.n_cols := by simp [Mat.n_elem, h1]
  rw [squaredHinge_Forward_eq self _ _ hs,
    maxOfColumns_one_row ⟨prediction.n_rows, prediction.n_cols,
      List.map (fun x => 1 - x)
        (List.zipWith (fun p t => p * t) prediction.mem (target.mem.map tempEntry))⟩
      h1 (by simp [hlp, hlt, hcols])]
  simp only [Mat.map, Mat.accu, squaredHingeTerms_eq]
  rw [list_sum_eq_sum_range]
  congr 2
  rw [List.length_zipWith, hlp, hlt, Nat.min_self]
  apply Finset.sum_congr rfl
  intro k hk
  rw [Finset.mem_range] at hk
  rw [zipWith_getD _ _ _ _ (hlp ▸ hk) (hlt ▸ hk)]
  rfl


/-! ## Auxiliary lemmas: NegativeLogLikelihood -/

theorem nll_forwardLoop_ok (prediction : Mat ℚ) (target : Mat Int)
    (hP : prediction.wf) (hT : target.wf) (hrow : target.n_rows = 1)
    (hm : target.n_cols ≤ prediction.n_rows)
    (hcls : ∀ i, i < target.n_cols → 0 ≤ target.el i ∧ target.el i < prediction.n_cols)
    (is : List Nat) (his : ∀ i ∈ is, i < target.n_cols) (L : Mat ℚ)
    (hL : L.n_elem = target.n_cols) :
    NegativeLogLikelihood.forwardLoop prediction target is L =
      .ok ⟨L.n_rows, L.n_cols,
        writeAll id (fun i => -(prediction.el2 i (target.el i).toNat)) is L.mem⟩ := by
  induction is generalizing L with
  | nil => simp [NegativeLogLikelihood.forwardLoop, writeAll]
  | cons i is ih =>
    have hi : i < target.n_cols := his i (by simp)
    have hiT : i < target.n_elem := by simp [Mat.n_elem, hrow, hi]
    have hcols := n_cols_lt_of_rows_pos prediction hP (by omega)
    obtain ⟨hz, hzlt⟩ := toSizeT_of_inRange (target.el i) prediction.n_cols hcols
      (hcls i hi).1 (hcls i hi).2
    have hiL : i < L.n_elem := by rw [hL]; exact hi
    have := ih (fun j hj => his j (by simp [hj])) ⟨L.n_rows, L.n_cols,
      L.mem.set i (-(prediction.el2 i (target.el i).toNat))⟩ hL
    simp only [NegativeLogLikelihood.forwardLoop, get1_ok target hT i hiT, bind, Except.bind,
      hz, Log.Assert, Nat.zero_le, decide_True, hzlt, Bool.and_self, if_true,
      get2_ok prediction hP i _ (by omega) hzlt, Mat.set1, hiL, this]
    simp [writeAll]

theorem nll_backwardLoop_ok (prediction : Mat ℚ) (target : Mat Int)
    (hP : prediction.wf) (hT : target.wf) (hrow : target.n_rows = 1)
    (hm : target.n_cols ≤ prediction.n_rows)
    (hcls : ∀ i, i < target.n_cols → 0 ≤ target.el i ∧ target.el i < prediction.n_cols)
    (is : List Nat) (his : ∀ i ∈ is, i < target.n_cols) (L : Mat ℚ)
    (hLr : L.n_rows = prediction.n_rows) (hLc : L.n_cols = prediction.n_cols) :
    NegativeLogLikelihood.backwardLoop prediction target is L =
      .ok ⟨L.n_rows, L.n_cols,
        writeAll (fun i => i + (target.el i).toNat * prediction.n_rows) (fun _ => -1)
          is L.mem⟩ := by
  induction is generalizing L with
  | nil => simp [NegativeLogLikelihood.backwardLoop, writeAll]
  | cons i is ih =>
    have hi : i < target.n_cols := his i (by simp)
    have hiT : i < target.n_elem := by simp [Mat.n_elem, hrow, hi]
    have hcols := n_cols_lt_of_rows_pos prediction hP (by omega)
    obtain ⟨hz, hzlt⟩ := toSizeT_of_inRange (target.el i) prediction.n_cols hcols
      (hcls i hi).1 (hcls i hi).2
    have hiL : i < L.n_rows := by rw [hLr]; omega
    have hcL : (target.el i).toNat < L.n_cols := by rw [hLc]; exact hzlt
    have := ih (fun j hj => his j (by simp [hj])) ⟨L.n_rows, L.n_cols,
      L.mem.set (i + (target.el i).toNat * L.n_rows) (-1)⟩ hLr hLc
    simp only [NegativeLogLikelihood.backwardLoop, get1_ok target hT i hiT, bind,
      Except.bind, hz, Log.Assert, Nat.zero_le, decide_True, hzlt, Bool.and_self, if_true,
      Mat.set2, hiL, hcL, and_self, this]
    simp [writeAll, hLr]

theorem nll_Forward_valid (self : NegativeLogLikelihood)
    (prediction : Mat ℚ) (target : Mat Int)
    (hP : prediction.wf) (hT : target.wf) (hrow : target.n_rows = 1)
    (hm : target.n_cols ≤ prediction.n_rows)
    (hcls : ∀ i, i < target.n_cols → 0 ≤ target.el i ∧ target.el i < prediction.n_cols) :
    self.Forward prediction target =
      .ok (if self.reduction then
          some (-(∑ i in Finset.range target.n_cols, prediction.el2 i (target.el i).toNat))
        else
          divCount (-(∑ i in Finset.range target.n_cols, prediction.el2 i (target.el i).toNat))
            target.n_elem) := by
  have hloop := nll_forwardLoop_ok prediction target hP hT hrow hm hcls
    (List.range target.n_cols) (fun i hi => List.mem_range.mp hi)
    (Mat.zeros target.n_rows target.n_cols) (by simp [Mat.zeros, Mat.n_elem, hrow])
  have hsum : (writeAll id (fun i => -(prediction.el2 i (target.el i).toNat))
      (List.range target.n_cols) (Mat.zeros target.n_rows target.n_cols).mem).sum
      = -(∑ i in Finset.range target.n_cols, prediction.el2 i (target.el i).toNat) := by
    rw [list_sum_eq_sum_range, writeAll_length, ← Finset.sum_neg_distrib]
    have hlen : (Mat.zeros target.n_rows target.n_cols).mem.length = target.n_cols := by
      simp [Mat.zeros, hrow]
    rw [hlen]
    apply Finset.sum_congr rfl
    intro k hk
    rw [Finset.mem_range] at hk
    rw [List.getD_eq_getElem?_getD, writeAll_getElem? _ _ _ _ _ (by rw [hlen]; exact hk)]
    simp [hk]
  cases hred : self.reduction <;>
    simp [NegativeLogLikelihood.Forward, hloop, bind, Except.bind, pure, Except.pure, hred,
      Mat.accu, hsum]

theorem nll_backward_entry (prediction : Mat ℚ) (target : Mat Int)
    (hm : target.n_cols ≤ prediction.n_rows)
    (hcls : ∀ i, i < target.n_cols → 0 ≤ target.el i ∧ target.el i < prediction.n_cols)
    (r c : Nat) (hr : r < prediction.n_rows) (hc : c < prediction.n_cols) :
    (writeAll (fun i => i + (target.el i).toNat * prediction.n_rows) (fun _ => -1)
      (List.range target.n_cols)
      (Mat.zeros prediction.n_rows prediction.n_cols).mem)[r + c * prediction.n_rows]?
      = some (if r < target.n_cols ∧ target.el r = c then -1 else 0) := by
  have hoff := offset_lt _ _ _ _ hr hc
  rw [writeAll_getElem? _ _ _ _ _ (by simpa [Mat.zeros] using hoff)]
  by_cases hcond : r < target.n_cols ∧ target.el r = c
  · have hmem : r + c * prediction.n_rows ∈ (List.range target.n_cols).map
        (fun i => i + (target.el i).toNat * prediction.n_rows) := by
      simp only [List.mem_map, List.mem_range]
      refine ⟨r, hcond.1, ?_⟩
      rw [hcond.2]; simp
    simp [hmem, hcond]
  · have hmem : ¬ r + c * prediction.n_rows ∈ (List.range target.n_cols).map
        (fun i => i + (target.el i).toNat * prediction.n_rows) := by
      simp only [List.mem_map, List.mem_range]
      rintro ⟨i, hi, hEq⟩
      obtain ⟨h1, h2⟩ := offset_inj _ _ _ _ _ (by omega) hr hEq
      subst h1
      apply hcond
      refine ⟨hi, ?_⟩
      have := (hcls i hi).1
      omega
    rw [if_neg hmem, if_neg hcond]
    simp [Mat.zeros, List.getElem?_replicate, hoff]

theorem nll_Backward_valid (self : NegativeLogLikelihood)
    (prediction : Mat ℚ) (target : Mat Int)
    (hP : prediction.wf) (hT : target.wf) (hrow : target.n_rows = 1)
    (hm : target.n_cols ≤ prediction.n_rows)
    (hcls : ∀ i, i < target.n_cols → 0 ≤ target.el i ∧ target.el i < prediction.n_cols) :
    self.Backward prediction target =
      .ok (Mat.map (fun x => if self.reduction then some x else divCount x target.n_elem)
        ⟨prediction.n_rows, prediction.n_cols,
          writeAll (fun i => i + (target.el i).toNat * prediction.n_rows) (fun _ => -1)
            (List.range target.n_cols)
            (Mat.zeros prediction.n_rows prediction.n_cols).mem⟩) := by
  have hloop := nll_backwardLoop_ok prediction target hP hT hrow hm hcls
    (List.range target.n_cols) (fun i hi => List.mem_range.mp hi)
    (Mat.zeros prediction.n_rows prediction.n_cols) rfl rfl
  rw [NegativeLogLikelihood.Backward, hloop]
  cases hred : self.reduction <;> rfl

theorem nll_sum_addAt (prediction : Mat ℚ) (target : Mat Int)
    (hP : prediction.wf) (hm : target.n_cols ≤ prediction.n_rows)
    (hcls : ∀ i, i < target.n_cols → 0 ≤ target.el i ∧ target.el i < prediction.n_cols)
    (r c : Nat) (hr : r < prediction.n_rows) (hc : c < prediction.n_cols) (h : ℚ) :
    (∑ i in Finset.range target.n_cols,
        (prediction.addAt (r + c * prediction.n_rows) h).el2 i (target.el i).toNat)
      = (∑ i in Finset.range target.n_cols, prediction.el2 i (target.el i).toNat)
        + (if r < target.n_cols ∧ target.el r = c then h else 0) := by
  have hoff : r + c * prediction.n_rows < prediction.mem.length := by
    rw [hP.1]; exact offset_lt _ _ _ _ hr hc
  have key : ∀ i a : Nat,
      (prediction.addAt (r + c * prediction.n_rows) h).el2 i a
        = prediction.el2 i a
          + (if i + a * prediction.n_rows = r + c * prediction.n_rows then h else 0) := by
    intro i a
    have hd : (default : ℚ) = 0 := rfl
    simp only [Mat.el2, Mat.el, Mat.addAt]
    rw [hd, addAtList_getD _ _ _ _ hoff]
  have hterm : ∀ i ∈ Finset.range target.n_cols,
      (prediction.addAt (r + c * prediction.n_rows) h).el2 i (target.el i).toNat
        = prediction.el2 i (target.el i).toNat
          + (if r = i then (if target.el r = c then h else 0) else 0) := by
    intro i hi
    rw [Finset.mem_range] at hi
    rw [key]
    congr 1
    by_cases hri : r = i
    · subst hri
      have := (hcls r hi).1
      have hpos : 0 < prediction.n_rows := by omega
      by_cases hrc : target.el r = c
      · have h1 : (target.el r).toNat = c := by omega
        simp [hrc, h1]
      · have h1 : ¬ (target.el r).toNat = c := by omega
        have h2 : ¬ prediction.n_rows = 0 := by omega
        simp [hrc, h1, h2]
    · have h1 : ¬ i + (target.el i).toNat * prediction.n_rows = r + c * prediction.n_rows := by
        intro hEq
        exact hri (offset_inj _ _ _ _ _ (by omega) hr hEq).1.symm
      rw [if_neg h1, if_neg hri]
  rw [Finset.sum_congr rfl hterm, Finset.sum_add_distrib, Finset.sum_ite_eq]
  congr 1
  by_cases h1 : r < target.n_cols <;> by_cases h2 : target.el r = c <;> simp [h1, h2]

theorem nll_forwardLoop_assert (prediction : Mat ℚ) (target : Mat Int)
    (hP : prediction.wf) (hT : target.wf) (hrow : target.n_rows = 1)
    (hm : target.n_cols ≤ prediction.n_rows)
    (htyped : ∀ i, i < target.n_cols → -(2 ^ 63) ≤ target.el i ∧ target.el i < 2 ^ 64)
    (is : List Nat) (his : ∀ i ∈ is, i < target.n_cols) (L : Mat ℚ)
    (hL : L.n_elem = target.n_cols)
    (hbad : ∃ i ∈ is, target.el i < 0 ∨ (prediction.n_cols : Int) ≤ target.el i) :
    NegativeLogLikelihood.forwardLoop prediction target is L =
      .error (.assertFailed "Target class out of range.") := by
  induction is generalizing L with
  | nil => simp at hbad
  | cons i is ih =>
    have hi : i < target.n_cols := his i (by simp)
    have hiT : i < target.n_elem := by simp [Mat.n_elem, hrow, hi]
    have hcols := n_cols_lt_of_rows_pos prediction hP (by omega)
    by_cases hhead : target.el i < 0 ∨ (prediction.n_cols : Int) ≤ target.el i
    · have hfail := toSizeT_of_outOfRange (target.el i) prediction.n_cols hcols
        (htyped i hi).1 (htyped i hi).2 hhead
      simp [NegativeLogLikelihood.forwardLoop, get1_ok target hT i hiT, bind, Except.bind,
        Log.Assert, hfail]
    · have hin : 0 ≤ target.el i ∧ target.el i < prediction.n_cols := by omega
      obtain ⟨hz, hzlt⟩ := toSizeT_of_inRange (target.el i) prediction.n_cols hcols hin.1 hin.2
      have hiL : i < L.n_elem := by rw [hL]; exact hi
      have hrest : ∃ j ∈ is, target.el j < 0 ∨ (prediction.n_cols : Int) ≤ target.el j := by
        obtain ⟨j, hj, hjb⟩ := hbad
        rcases List.mem_cons.mp hj with hji | hjis
        · subst hji; exact absurd hjb hhead
        · exact ⟨j, hjis, hjb⟩
      have := ih (fun j hj => his j (by simp [hj])) ⟨L.n_rows, L.n_cols,
        L.mem.set i (-(prediction.el2 i (target.el i).toNat))⟩ hL hrest
      simp only [NegativeLogLikelihood.forwardLoop, get1_ok target hT i hiT, bind,
        Except.bind, hz, Log.Assert, Nat.zero_le, decide_True, hzlt, Bool.and_self, if_true,
        get2_ok prediction hP i _ (by omega) hzlt, Mat.set1, hiL, this]

theorem nll_backwardLoop_assert (prediction : Mat ℚ) (target : Mat Int)
    (hP : prediction.wf) (hT : target.wf) (hrow : target.n_rows = 1)
    (hm : target.n_cols ≤ prediction.n_rows)
    (htyped : ∀ i, i < target.n_cols → -(2 ^ 63) ≤ target.el i ∧ target.el i < 2 ^ 64)
    (is : List Nat) (his : ∀ i ∈ is, i < target.n_cols) (L : Mat ℚ)
    (hLr : L.n_rows = prediction.n_rows) (hLc : L.n_cols = prediction.n_cols)
    (hbad : ∃ i ∈ is, target.el i < 0 ∨ (prediction.n_cols : Int) ≤ target.el i) :
    NegativeLogLikelihood.backwardLoop prediction target is L =
      .error (.assertFailed "Target class out of range.") := by
  induction is generalizing L with
  | nil => simp at hbad
  | cons i is ih =>
    have hi : i < target.n_cols := his i (by simp)
    have hiT : i < target.n_elem := by simp [Mat.n_elem, hrow, hi]
    have hcols := n_cols_lt_of_rows_pos prediction hP (by omega)
    by_cases hhead : target.el i < 0 ∨ (prediction.n_cols : Int) ≤ target.el i
    · have hfail := toSizeT_of_outOfRange (target.el i) prediction.n_cols hcols
        (htyped i hi).1 (htyped i hi).2 hhead
      simp [NegativeLogLikelihood.backwardLoop, get1_ok target hT i hiT, bind, Except.bind,
        Log.Assert, hfail]
    · have hin : 0 ≤ target.el i ∧ target.el i < prediction.n_cols := by omega
      obtain ⟨hz, hzlt⟩ := toSizeT_of_inRange (target.el i) prediction.n_cols hcols hin.1 hin.2
      have hiL : i < L.n_rows := by rw [hLr]; omega
      have hcL : (target.el i).toNat < L.n_cols := by rw [hLc]; exact hzlt
      have hrest : ∃ j ∈ is, target.el j < 0 ∨ (prediction.n_cols : Int) ≤ target.el j := by
        obtain ⟨j, hj, hjb⟩ := hbad
        rcases List.mem_cons.mp hj with hji | hjis
        · subst hji; exact absurd hjb hhead
        · exact ⟨j, hjis, hjb⟩
      have := ih (fun j hj => his j (by simp [hj])) ⟨L.n_rows, L.n_cols,
        L.mem.set (i + (target.el i).toNat * L.n_rows) (-1)⟩ hLr hLc hrest
      simp only [NegativeLogLikelihood.backwardLoop, get1_ok target hT i hiT, bind,
        Except.bind, hz, Log.Assert, Nat.zero_le, decide_True, hzlt, Bool.and_self, if_true,
        Mat.set2, hiL, hcL, and_self, this]

theorem nll_forwardLoop_fails (prediction : Mat ℚ) (target : Mat Int)
    (hP : prediction.wf) (hT : target.wf) (hrow : target.n_rows = 1)
    (htyped : ∀ i, i < target.n_cols → -(2 ^ 63) ≤ target.el i ∧ target.el i < 2 ^ 64)
    (is : List Nat) (his : ∀ i ∈ is, i < target.n_cols) (L : Mat ℚ)
    (hL : L.n_elem = target.n_cols)
    (hbad : ∃ i ∈ is, target.el i < 0 ∨ (prediction.n_cols : Int) ≤ target.el i) :
    ∃ e, NegativeLogLikelihood.forwardLoop prediction target is L = .error e := by
  induction is generalizing L with
  | nil => simp at hbad
  | cons i is ih =>
    have hi : i < target.n_cols := his i (by simp)
    have hiT : i < target.n_elem := by simp [Mat.n_elem, hrow, hi]
    by_cases hreach : i < prediction.n_rows
    · have hcols := n_cols_lt_of_rows_pos prediction hP (by omega)
      by_cases hhead : target.el i < 0 ∨ (prediction.n_cols : Int) ≤ target.el i
      · have hfail := toSizeT_of_outOfRange (target.el i) prediction.n_cols hcols
          (htyped i hi).1 (htyped i hi).2 hhead
        simp [NegativeLogLikelihood.forwardLoop, get1_ok target hT i hiT, bind, Except.bind,
          Log.Assert, hfail]
      · have hin : 0 ≤ target.el i ∧ target.el i < prediction.n_cols := by omega
        obtain ⟨hz, hzlt⟩ := toSizeT_of_inRange (target.el i) prediction.n_cols hcols
          hin.1 hin.2
        have hiL : i < L.n_elem := by rw [hL]; exact hi
        have hrest : ∃ j ∈ is, target.el j < 0 ∨ (prediction.n_cols : Int) ≤ target.el j := by
          obtain ⟨j, hj, hjb⟩ := hbad
          rcases List.mem_cons.mp hj with hji | hjis
          · subst hji; exact absurd hjb hhead
          · exact ⟨j, hjis, hjb⟩
        obtain ⟨e, he⟩ := ih (fun j hj => his j (by simp [hj])) ⟨L.n_rows, L.n_cols,
          L.mem.set i (-(prediction.el2 i (target.el i).toNat))⟩ hL hrest
        refine ⟨e, ?_⟩
        simp only [NegativeLogLikelihood.forwardLoop, get1_ok target hT i hiT, bind,
          Except.bind, hz, Log.Assert, Nat.zero_le, decide_True, hzlt, Bool.and_self, if_true,
          get2_ok prediction hP i _ hreach hzlt, Mat.set1, hiL, he]
    · simp only [NegativeLogLikelihood.forwardLoop, get1_ok target hT i hiT, bind,
        Except.bind, Log.Assert, Mat.get2, hreach, false_and, if_false]
      split <;> simp

theorem nll_backwardLoop_fails (prediction : Mat ℚ) (target : Mat Int)
    (hP : prediction.wf) (hT : target.wf) (hrow : target.n_rows = 1)
    (htyped : ∀ i, i < target.n_cols → -(2 ^ 63) ≤ target.el i ∧ target.el i < 2 ^ 64)
    (is : List Nat) (his : ∀ i ∈ is, i < target.n_cols) (L : Mat ℚ)
    (hLr : L.n_rows = prediction.n_rows) (hLc : L.n_cols = prediction.n_cols)
    (hbad : ∃ i ∈ is, target.el i < 0 ∨ (prediction.n_cols : Int) ≤ target.el i) :
    ∃ e, NegativeLogLikelihood.backwardLoop prediction target is L = .error e := by
  induction is generalizing L with
  | nil => simp at hbad
  | cons i is ih =>
    have hi : i < target.n_cols := his i (by simp)
    have hiT : i < target.n_elem := by simp [Mat.n_elem, hrow, hi]
    by_cases hreach : i < prediction.n_rows
    · have hcols := n_cols_lt_of_rows_pos prediction hP (by omega)
      by_cases hhead : target.el i < 0 ∨ (prediction.n_cols : Int) ≤ target.el i
      · have hfail := toSizeT_of_outOfRange (target.el i) prediction.n_cols hcols
          (htyped i hi).1 (htyped i hi).2 hhead
        simp [NegativeLogLikelihood.backwardLoop, get1_ok target hT i hiT, bind, Except.bind,
          Log.Assert, hfail]
      · have hin : 0 ≤ target.el i ∧ target.el i < prediction.n_cols := by omega
        obtain ⟨hz, hzlt⟩ := toSizeT_of_inRange (target.el i) prediction.n_cols hcols
          hin.1 hin.2
        have hiL : i < L.n_rows := by rw [hLr]; exact hreach
        have hcL : (target.el i).toNat < L.n_cols := by rw [hLc]; exact hzlt
        have hrest : ∃ j ∈ is, target.el j < 0 ∨ (prediction.n_cols : Int) ≤ target.el j := by
          obtain ⟨j, hj, hjb⟩ := hbad
          rcases List.mem_cons.mp hj with hji | hjis
          · subst hji; exact absurd hjb hhead
          · exact ⟨j, hjis, hjb⟩
        obtain ⟨e, he⟩ := ih (fun j hj => his j (by simp [hj])) ⟨L.n_rows, L.n_cols,
          L.mem.set (i + (target.el i).toNat * L.n_rows) (-1)⟩ hLr hLc hrest
        refine ⟨e, ?_⟩
        simp only [NegativeLogLikelihood.backwardLoop, get1_ok target hT i hiT, bind,
          Except.bind, hz, Log.Assert, Nat.zero_le, decide_True, hzlt, Bool.and_self, if_true,
          Mat.set2, hiL, hcL, and_self, he]
    · have hiL : ¬ i < L.n_rows := by rw [hLr]; exact hreach
      simp only [NegativeLogLikelihood.backwardLoop, get1_ok target hT i hiT, bind,
        Except.bind, Log.Assert, Mat.set2, hiL, false_and, if_false]
      split <;> simp

/-! ## Claims -/

/-- Claim C1, evaluated on the code: for the 1x1 prediction `[0]` and target `[1]`
`SquaredHingeLoss::Backward` writes `-1`, while the partial derivative of `Forward`
named by the claim, `-2 * t * max(1 - p * t, 0) / n`, is `-2` there. The three values
of `Forward` around the point (`9/4` at `-1/2`, `1` at `0`, `1/4` at `1/2`) show the
slope `-2` of the loss itself. -/
theorem squaredHinge_backward_differs_from_gradient :
    SquaredHingeLoss.Backward .new ⟨1, 1, [0]⟩ ⟨1, 1, [1]⟩ = .ok ⟨1, 1, [-1]⟩ ∧
    squaredHingeGradient ⟨1, 1, [0]⟩ ⟨1, 1, [1]⟩ 0 = -2 ∧
    SquaredHingeLoss.Forward .new ⟨1, 1, [-1 / 2]⟩ ⟨1, 1, [1]⟩ = .ok (some (9 / 4)) ∧
    SquaredHingeLoss.Forward .new ⟨1, 1, [0]⟩ ⟨1, 1, [1]⟩ = .ok (some 1) ∧
    SquaredHingeLoss.Forward .new ⟨1, 1, [1 / 2]⟩ ⟨1, 1, [1]⟩ = .ok (some (1 / 4)) := by
  refine ⟨?_, ?_, ?_, ?_, ?_⟩
  · simp [SquaredHingeLoss.Backward, SquaredHingeLoss.temp, Mat.zipWith, Mat.map, bind,
      Except.bind]
  · simp [squaredHingeGradient, Mat.el, Mat.n_elem]
  · simp [SquaredHingeLoss.Forward, SquaredHingeLoss.temp, Mat.zipWith, Mat.map, bind,
      Except.bind, Mat.accu, divCount, Mat.n_elem, pure, Except.pure, Mat.maxOfColumns,
      Mat.column, Mat.listMax, List.range, List.range.loop]
    norm_num
  · simp [SquaredHingeLoss.Forward, SquaredHingeLoss.temp, Mat.zipWith, Mat.map, bind,
      Except.bind, Mat.accu, divCount, Mat.n_elem, pure, Except.pure, Mat.maxOfColumns,
      Mat.column, Mat.listMax, List.range, List.range.loop]
  · simp [SquaredHingeLoss.Forward, SquaredHingeLoss.temp, Mat.zipWith, Mat.map, bind,
      Except.bind, Mat.accu, divCount, Mat.n_elem, pure, Except.pure, Mat.maxOfColumns,
      Mat.column, Mat.listMax, List.range, List.range.loop]
    norm_num

/-- Claim C2: `HingeEmbeddingLoss::Backward` writes the gradient of
`HingeEmbeddingLoss::Forward` with respect to the input, in both reduction modes.
For every input and same-shape target, every element position `k` and every
number `h`, both calls of `Forward` and the call of `Backward` return, the written
matrix has the shape of the input, and
`Forward(input + h * e_k, target) - Forward(input, target) = h * Backward(input, target)[k]`. -/
theorem hingeEmbedding_backward_is_gradient
    (self : HingeEmbeddingLoss) (input target : Mat ℚ)
    (hi : input.wf) (ht : target.wf) (hs : input.sameShape target)
    (k : Nat) (hk : k < input.n_elem) (h : ℚ) :
    ∃ v0 v1 g G,
      self.Forward input target = .ok (some v0) ∧
      self.Forward (input.addAt k h) target = .ok (some v1) ∧
      self.Backward input target = .ok G ∧
      G.n_rows = input.n_rows ∧ G.n_cols = input.n_cols ∧
      G.mem[k]? = some (some g) ∧
      v1 - v0 = h * g := by
  have hs' : (input.addAt k h).sameShape target := hs
  obtain ⟨hr, hc⟩ := hs
  obtain ⟨hil, _⟩ := hi
  obtain ⟨htl, _⟩ := ht
  have hkl : k < input.mem.length := by rw [hil]; exact hk
  have hll : input.mem.length = target.mem.length := by rw [hil, htl, hr, hc]
  have hkt : k < target.mem.length := hll ▸ hkl
  have hn : input.n_elem ≠ 0 := by omega
  have hn' : (input.addAt k h).n_elem = input.n_elem := rfl
  have key := hingeEmbeddingTerms_addAt input.mem target.mem k h hkl hll
  have hget : target.mem.getD k 0 = target.mem[k] := by
    simp [List.getD_eq_getElem?_getD, List.getElem?_eq_getElem hkt]
  rw [hget] at key
  rw [hingeEmbedding_Forward_eq self _ _ hs', hingeEmbedding_Forward_eq self _ _ ⟨hr, hc⟩,
    hingeEmbedding_Backward_eq, hn']
  cases hred : self.reduction
  · refine ⟨(hingeEmbeddingTerms input.mem target.mem).sum / (input.n_elem : ℚ),
      (hingeEmbeddingTerms (input.addAt k h).mem target.mem).sum / (input.n_elem : ℚ),
      target.mem[k] / (input.n_elem : ℚ), _, ?_, ?_, rfl, hr.symm, hc.symm, ?_, ?_⟩
    · simp [divCount, hn]
    · simp [divCount, hn]
    · simp [List.getElem?_eq_getElem hkt, divCount, hn]
    · rw [← sub_div]
      simp only [Mat.addAt]
      rw [key]; ring
  · refine ⟨(hingeEmbeddingTerms input.mem target.mem).sum,
      (hingeEmbeddingTerms (input.addAt k h).mem target.mem).sum,
      target.mem[k], _, ?_, ?_, rfl, hr.symm, hc.symm, ?_, ?_⟩
    · simp
    · simp
    · simp [List.getElem?_eq_getElem hkt]
    · exact key

/-- Witness of C2: mean mode, input `[3, 4]`, target `[1, -1]`, position 1, `h = 5`. -/
theorem hingeEmbedding_backward_is_gradient_witness :
    ∃ v0 v1 g G,
      HingeEmbeddingLoss.Forward ⟨false⟩ ⟨1, 2, [3, 4]⟩ ⟨1, 2, [1, -1]⟩ = .ok (some v0) ∧
      HingeEmbeddingLoss.Forward ⟨false⟩ (Mat.addAt ⟨1, 2, [3, 4]⟩ 1 5) ⟨1, 2, [1, -1]⟩
        = .ok (some v1) ∧
      HingeEmbeddingLoss.Backward ⟨false⟩ ⟨1, 2, [3, 4]⟩ ⟨1, 2, [1, -1]⟩ = .ok G ∧
      G.n_rows = 1 ∧ G.n_cols = 2 ∧
      G.mem[1]? = some (some g) ∧
      v1 - v0 = 5 * g :=
  hingeEmbedding_backward_is_gradient ⟨false⟩ ⟨1, 2, [3, 4]⟩ ⟨1, 2, [1, -1]⟩
    (by decide) (by decide) (by decide) 1 (by decide) 5

/-- Claim C3: `NegativeLogLikelihood::Backward` writes the gradient of
`NegativeLogLikelihood::Forward` with respect to the prediction, in both reduction
modes. For every prediction and every target row vector with `m >= 1` columns,
`m <= prediction.n_rows` and every `target(i)` in `[0, prediction.n_cols)`, for every
position `(r, c)` of the prediction and every number `h`, the calls return and
`Forward(prediction + h * E_rc, target) - Forward(prediction, target)
  = h * Backward(prediction, target)(r, c)`;
the entry `Backward(r, c)` is `-1` (sum) or `-1 / m` (mean) when `r < m` and
`c = target(r)`, and `0` everywhere else. -/
theorem nll_backward_is_gradient
    (self : NegativeLogLikelihood) (prediction : Mat ℚ) (target : Mat Int)
    (hP : prediction.wf) (hT : target.wf) (hrow : target.n_rows = 1)
    (hm1 : 1 ≤ target.n_cols) (hm : target.n_cols ≤ prediction.n_rows)
    (hcls : ∀ i, i < target.n_cols → 0 ≤ target.el i ∧ target.el i < prediction.n_cols)
    (r c : Nat) (hr : r < prediction.n_rows) (hc : c < prediction.n_cols) (h : ℚ) :
    ∃ v0 v1 g G,
      self.Forward prediction target = .ok (some v0) ∧
      self.Forward (prediction.addAt (r + c * prediction.n_rows) h) target = .ok (some v1) ∧
      self.Backward prediction target = .ok G ∧
      G.n_rows = prediction.n_rows ∧ G.n_cols = prediction.n_cols ∧
      G.mem[r + c * prediction.n_rows]? = some (some g) ∧
      v1 - v0 = h * g ∧
      g = (if r < target.n_cols ∧ target.el r = c then
            (if self.reduction then -1 else -1 / (target.n_cols : ℚ))
          else 0) := by
  have hP' : (prediction.addAt (r + c * prediction.n_rows) h).wf := by
    refine ⟨?_, hP.2⟩
    simp only [Mat.addAt, addAtList_length]
    exact hP.1
  have hcount : target.n_elem = target.n_cols := by simp [Mat.n_elem, hrow]
  have hn0 : target.n_cols ≠ 0 := by omega
  have hsum := nll_sum_addAt prediction target hP hm hcls r c hr hc h
  have hentry := nll_backward_entry prediction target hm hcls r c hr hc
  rw [nll_Forward_valid self prediction target hP hT hrow hm hcls,
    nll_Forward_valid self _ target hP' hT hrow hm hcls,
    nll_Backward_valid self prediction target hP hT hrow hm hcls, hcount]
  have hrows' : (prediction.addAt (r + c * prediction.n_rows) h).n_rows = prediction.n_rows := rfl
  simp only [hrows'] at hsum
  cases hred : self.reduction
  · refine ⟨(-(∑ i in Finset.range target.n_cols, prediction.el2 i (target.el i).toNat))
        / (target.n_cols : ℚ),
      (-(∑ i in Finset.range target.n_cols,
        (prediction.addAt (r + c * prediction.n_rows) h).el2 i (target.el i).toNat))
        / (target.n_cols : ℚ),
      (if r < target.n_cols ∧ target.el r = c then -1 else 0) / (target.n_cols : ℚ), _,
      ?_, ?_, rfl, rfl, rfl, ?_, ?_, ?_⟩
    · simp [divCount, hn0]
    · simp [divCount, hn0]
    · simp only [Mat.map, List.getElem?_map, hentry]
      simp [divCount, hn0]
    · rw [hsum]
      split_ifs <;> ring
    · by_cases hcond : r < target.n_cols ∧ target.el r = c <;> simp [hcond]
  · refine ⟨(-(∑ i in Finset.range target.n_cols, prediction.el2 i (target.el i).toNat)),
      (-(∑ i in Finset.range target.n_cols,
        (prediction.addAt (r + c * prediction.n_rows) h).el2 i (target.el i).toNat)),
      (if r < target.n_cols ∧ target.el r = c then -1 else 0), _,
      ?_, ?_, rfl, rfl, rfl, ?_, ?_, ?_⟩
    · simp
    · simp
    · simp only [Mat.map, List.getElem?_map, hentry]
      simp
    · rw [hsum]
      split_ifs <;> ring
    · by_cases hcond : r < target.n_cols ∧ target.el r = c <;> simp [hcond]

/-- Witness of C3: mean mode, the 2x2 prediction with columns `(1, 2)` and `(3, 4)`,
target `[1, 0]`, position `(0, 1)`, `h = 7`. -/
theorem nll_backward_is_gradient_witness :
    ∃ v0 v1 g G,
      NegativeLogLikelihood.Forward (.new false) ⟨2, 2, [1, 2, 3, 4]⟩ ⟨1, 2, [1, 0]⟩
        = .ok (some v0) ∧
      NegativeLogLikelihood.Forward (.new false)
        (Mat.addAt ⟨2, 2, [1, 2, 3, 4]⟩ (0 + 1 * 2) 7) ⟨1, 2, [1, 0]⟩ = .ok (some v1) ∧
      NegativeLogLikelihood.Backward (.new false) ⟨2, 2, [1, 2, 3, 4]⟩ ⟨1, 2, [1, 0]⟩ = .ok G ∧
      G.n_rows = 2 ∧ G.n_cols = 2 ∧
      G.mem[0 + 1 * 2]? = some (some g) ∧
      v1 - v0 = 7 * g ∧
      g = (if 0 < 2 ∧ Mat.el (⟨1, 2, [1, 0]⟩ : Mat Int) 0 = ((1 : Nat) : Int) then
            (if (NegativeLogLikelihood.new false).reduction then -1 else -1 / ((2 : Nat) : ℚ))
          else 0) :=
  nll_backward_is_gradient (.new false)
    ⟨2, 2, [1, 2, 3, 4]⟩ ⟨1, 2, [1, 0]⟩ (by decide) (by decide) (by decide) (by decide)
    (by decide) (by decide) 0 1 (by decide) (by decide) 7

/-- Claim C4 as stated fails: the 1x2 prediction `[3, 4]` has 2 classes and the
target `[0, 0, 7]` holds the class index 7 at column 2, yet `Forward` and `Backward`
both fail with an out-of-bounds element access (row 1 of a one-row matrix, reached
at column 1) and not with the assertion. -/
theorem nll_bad_index_fails_out_of_bounds_first :
    Mat.el (⟨1, 3, [0, 0, 7]⟩ : Mat Int) 2 = 7 ∧
    ¬ ((7 : Int) < (Mat.n_cols (⟨1, 2, [3, 4]⟩ : Mat ℚ) : Nat)) ∧
    NegativeLogLikelihood.Forward (.new true) ⟨1, 2, [3, 4]⟩ ⟨1, 3, [0, 0, 7]⟩
      = .error .outOfBounds ∧
    NegativeLogLikelihood.Backward (.new true) ⟨1, 2, [3, 4]⟩ ⟨1, 3, [0, 0, 7]⟩
      = .error .outOfBounds ∧
    NegativeLogLikelihood.Forward (.new true) ⟨1, 2, [3, 4]⟩ ⟨1, 3, [0, 0, 7]⟩
      ≠ .error (.assertFailed "Target class out of range.") ∧
    NegativeLogLikelihood.Backward (.new true) ⟨1, 2, [3, 4]⟩ ⟨1, 3, [0, 0, 7]⟩
      ≠ .error (.assertFailed "Target class out of range.") := by
  have hf : NegativeLogLikelihood.Forward (.new true) ⟨1, 2, [3, 4]⟩ ⟨1, 3, [0, 0, 7]⟩
      = .error .outOfBounds := by
    simp [NegativeLogLikelihood.Forward, NegativeLogLikelihood.forwardLoop, List.range,
      List.range.loop, Mat.get1, Mat.get2, Mat.set1, Mat.zeros, Mat.n_elem, Log.Assert, toSizeT,
      bind, Except.bind]
  have hb : NegativeLogLikelihood.Backward (.new true) ⟨1, 2, [3, 4]⟩ ⟨1, 3, [0, 0, 7]⟩
      = .error .outOfBounds := by
    simp [NegativeLogLikelihood.Backward, NegativeLogLikelihood.backwardLoop, List.range,
      List.range.loop, Mat.get1, Mat.set2, Mat.zeros, Mat.n_elem, Log.Assert, toSizeT,
      bind, Except.bind]
  refine ⟨by decide, by decide, hf, hb, ?_, ?_⟩
  · rw [hf]; intro h; cases h
  · rw [hb]; intro h; cases h

/-- Claim C4, amended: for every prediction with `numClasses = prediction.n_cols`
classes and every target row vector (its labels held in a 64-bit integer type) that
contains, at some column `i`, a class index outside `[0, numClasses)`, both `Forward`
and `Backward` fail instead of returning a value; the failure is the
`Target class out of range.` assertion whenever the target has at most
`prediction.n_rows` columns. -/
theorem nll_bad_index_fails_assertion
    (self : NegativeLogLikelihood) (prediction : Mat ℚ) (target : Mat Int)
    (hP : prediction.wf) (hT : target.wf) (hrow : target.n_rows = 1)
    (htyped : ∀ i, i < target.n_cols → -(2 ^ 63) ≤ target.el i ∧ target.el i < 2 ^ 64)
    (i : Nat) (hi : i < target.n_cols)
    (hbad : target.el i < 0 ∨ (prediction.n_cols : Int) ≤ target.el i) :
    (∃ e, self.Forward prediction target = .error e) ∧
    (∃ e, self.Backward prediction target = .error e) ∧
    (target.n_cols ≤ prediction.n_rows →
      self.Forward prediction target = .error (.assertFailed "Target class out of range.") ∧
      self.Backward prediction target
        = .error (.assertFailed "Target class out of range.")) := by
  have hex : ∃ j ∈ List.range target.n_cols,
      target.el j < 0 ∨ (prediction.n_cols : Int) ≤ target.el j :=
    ⟨i, List.mem_range.mpr hi, hbad⟩
  have hrange : ∀ j ∈ List.range target.n_cols, j < target.n_cols :=
    fun j hj => List.mem_range.mp hj
  have hzeros : (Mat.zeros target.n_rows target.n_cols).n_elem = target.n_cols := by
    simp [Mat.zeros, Mat.n_elem, hrow]
  refine ⟨?_, ?_, ?_⟩
  · obtain ⟨e, he⟩ := nll_forwardLoop_fails prediction target hP hT hrow htyped
      (List.range target.n_cols) hrange (Mat.zeros target.n_rows target.n_cols) hzeros hex
    exact ⟨e, by rw [NegativeLogLikelihood.Forward, he]; rfl⟩
  · obtain ⟨e, he⟩ := nll_backwardLoop_fails prediction target hP hT hrow htyped
      (List.range target.n_cols) hrange (Mat.zeros prediction.n_rows prediction.n_cols)
      rfl rfl hex
    exact ⟨e, by rw [NegativeLogLikelihood.Backward, he]; rfl⟩
  · intro hm
    have hf := nll_forwardLoop_assert prediction target hP hT hrow hm htyped
      (List.range target.n_cols) hrange (Mat.zeros target.n_rows target.n_cols) hzeros hex
    have hb := nll_backwardLoop_assert prediction target hP hT hrow hm htyped
      (List.range target.n_cols) hrange (Mat.zeros prediction.n_rows prediction.n_cols)
      rfl rfl hex
    constructor
    · rw [NegativeLogLikelihood.Forward, hf]; rfl
    · rw [NegativeLogLikelihood.Backward, hb]; rfl

/-- Witness of the amended C4: a 2x2 prediction and the target `[1, -1]`, whose
column 1 holds the index `-1`. -/
theorem nll_bad_index_fails_assertion_witness :
    NegativeLogLikelihood.Forward (.new false) ⟨2, 2, [1, 2, 3, 4]⟩ ⟨1, 2, [1, -1]⟩
      = .error (.assertFailed "Target class out of range.") ∧
    NegativeLogLikelihood.Backward (.new false) ⟨2, 2, [1, 2, 3, 4]⟩ ⟨1, 2, [1, -1]⟩
      = .error (.assertFailed "Target class out of range.") :=
  (nll_bad_index_fails_assertion (.new false)
    ⟨2, 2, [1, 2, 3, 4]⟩ ⟨1, 2, [1, -1]⟩ (by decide) (by decide) (by decide)
    (by decide) 1 (by decide) (by decide)).2.2 (by decide)

/-- Claim C5 as stated fails: the 1x1 prediction `[0]` has `C = 1` class and
one data point, and the target `[1]` holds the class index `1`, which lies between 1
and `C`; `Forward` and `Backward` fail with the `Target class out of range.`
assertion, in both reduction modes. -/
theorem nll_index_equal_to_class_count_fails :
    Mat.n_cols (⟨1, 1, [0]⟩ : Mat ℚ) = 1 ∧
    Mat.el (⟨1, 1, [1]⟩ : Mat Int) 0 = 1 ∧
    NegativeLogLikelihood.Forward (.new true) ⟨1, 1, [0]⟩ ⟨1, 1, [1]⟩
      = .error (.assertFailed "Target class out of range.") ∧
    NegativeLogLikelihood.Backward (.new true) ⟨1, 1, [0]⟩ ⟨1, 1, [1]⟩
      = .error (.assertFailed "Target class out of range.") ∧
    NegativeLogLikelihood.Forward (.new false) ⟨1, 1, [0]⟩ ⟨1, 1, [1]⟩
      = .error (.assertFailed "Target class out of range.") ∧
    NegativeLogLikelihood.Backward (.new false) ⟨1, 1, [0]⟩ ⟨1, 1, [1]⟩
      = .error (.assertFailed "Target class out of range.") := by
  refine ⟨rfl, by decide, ?_, ?_, ?_, ?_⟩ <;>
    simp [NegativeLogLikelihood.Forward, NegativeLogLikelihood.Backward,
      NegativeLogLikelihood.forwardLoop, NegativeLogLikelihood.backwardLoop, List.range,
      List.range.loop, Mat.get1, Mat.get2, Mat.set1, Mat.set2, Mat.zeros, Mat.n_elem,
      Log.Assert, toSizeT, bind, Except.bind]

/-- Claim C6: `NegativeLogLikelihood::Forward` with sum reduction (`reduction = true`,
the default of the constructor) returns the negated sum of the log-probabilities of
the target classes: for every prediction and every target row vector with `m`
columns, `m <= prediction.n_rows` and every `target(i)` in `[0, prediction.n_cols)`,
the result is `-(sum over i < m of prediction(i, target(i)))`. -/
theorem nll_forward_sum_is_negated_sum
    (self : NegativeLogLikelihood) (hred : self.reduction = true)
    (prediction : Mat ℚ) (target : Mat Int)
    (hP : prediction.wf) (hT : target.wf) (hrow : target.n_rows = 1)
    (hm : target.n_cols ≤ prediction.n_rows)
    (hcls : ∀ i, i < target.n_cols → 0 ≤ target.el i ∧ target.el i < prediction.n_cols) :
    NegativeLogLikelihood.defaultReduction = true ∧
    self.Forward prediction target =
      .ok (some (-(∑ i in Finset.range target.n_cols,
        prediction.el2 i (target.el i).toNat))) := by
  refine ⟨rfl, ?_⟩
  rw [nll_Forward_valid self prediction target hP hT hrow hm hcls, hred]
  rfl

/-- Witness of C6: the default-constructed loss, a 2x2 prediction, target `[1, 0]`. -/
theorem nll_forward_sum_is_negated_sum_witness :
    NegativeLogLikelihood.defaultReduction = true ∧
    NegativeLogLikelihood.Forward (.new NegativeLogLikelihood.defaultReduction)
        ⟨2, 2, [1, 2, 3, 4]⟩ ⟨1, 2, [1, 0]⟩ =
      .ok (some (-(∑ i in Finset.range (Mat.n_cols (⟨1, 2, [1, 0]⟩ : Mat Int)),
        Mat.el2 (⟨2, 2, [1, 2, 3, 4]⟩ : Mat ℚ) i
          (Mat.el (⟨1, 2, [1, 0]⟩ : Mat Int) i).toNat))) :=
  nll_forward_sum_is_negated_sum (.new NegativeLogLikelihood.defaultReduction) rfl
    ⟨2, 2, [1, 2, 3, 4]⟩ ⟨1, 2, [1, 0]⟩
    (by decide) (by decide) (by decide) (by decide) (by decide)

/-- Claim C7: for `HingeEmbeddingLoss` the `reduction = false` output equals the
`reduction = true` output divided by the element count. For every input and
same-shape target with `n = input.n_elem >= 1`, `Forward` with `reduction = false`
returns the value of `Forward` with `reduction = true` divided by `n`, and every
entry written by `Backward` with `reduction = false` is the corresponding entry
written with `reduction = true` divided by `n`. -/
theorem hingeEmbedding_mean_is_sum_divided (input target : Mat ℚ)
    (hs : input.sameShape target) (hn : 1 ≤ input.n_elem) :
    ∃ (s : ℚ) (G : Mat ℚ),
      HingeEmbeddingLoss.Forward ⟨true⟩ input target = .ok (some s) ∧
      HingeEmbeddingLoss.Forward ⟨false⟩ input target = .ok (some (s / (input.n_elem : ℚ))) ∧
      HingeEmbeddingLoss.Backward ⟨true⟩ input target = .ok (G.map some) ∧
      HingeEmbeddingLoss.Backward ⟨false⟩ input target
        = .ok (G.map (fun g => some (g / (input.n_elem : ℚ)))) ∧
      G.sameShape input := by
  have hn0 : input.n_elem ≠ 0 := by omega
  refine ⟨(hingeEmbeddingTerms input.mem target.mem).sum, target, ?_, ?_, ?_, ?_, ?_⟩
  · rw [hingeEmbedding_Forward_eq _ _ _ hs]; rfl
  · rw [hingeEmbedding_Forward_eq _ _ _ hs]; simp [divCount, hn0]
  · rw [hingeEmbedding_Backward_eq]; simp [Mat.map]
  · rw [hingeEmbedding_Backward_eq]; simp [Mat.map, divCount, hn0]
  · exact ⟨hs.1.symm, hs.2.symm⟩

/-- Witness of C7: input `[3, 4]`, target `[1, -1]`. -/
theorem hingeEmbedding_mean_is_sum_divided_witness :
    ∃ (s : ℚ) (G : Mat ℚ),
      HingeEmbeddingLoss.Forward ⟨true⟩ ⟨1, 2, [3, 4]⟩ ⟨1, 2, [1, -1]⟩ = .ok (some s) ∧
      HingeEmbeddingLoss.Forward ⟨false⟩ ⟨1, 2, [3, 4]⟩ ⟨1, 2, [1, -1]⟩
        = .ok (some (s / ((Mat.n_elem (⟨1, 2, [3, 4]⟩ : Mat ℚ) : Nat) : ℚ))) ∧
      HingeEmbeddingLoss.Backward ⟨true⟩ ⟨1, 2, [3, 4]⟩ ⟨1, 2, [1, -1]⟩ = .ok (G.map some) ∧
      HingeEmbeddingLoss.Backward ⟨false⟩ ⟨1, 2, [3, 4]⟩ ⟨1, 2, [1, -1]⟩
        = .ok (G.map (fun g => some (g / ((Mat.n_elem (⟨1, 2, [3, 4]⟩ : Mat ℚ) : Nat) : ℚ)))) ∧
      G.sameShape (⟨1, 2, [3, 4]⟩ : Mat ℚ) :=
  hingeEmbedding_mean_is_sum_divided ⟨1, 2, [3, 4]⟩ ⟨1, 2, [1, -1]⟩ (by decide) (by decide)

/-- Claim C8: for `NegativeLogLikelihood` the `reduction = false` output equals the
`reduction = true` output divided by the element count of the target. For every
prediction and every target with `target.n_elem >= 1`, the result of `Forward` with
`reduction = false` is the result with `reduction = true` divided by `target.n_elem`,
and every entry written by `Backward` with `reduction = false` is the corresponding
entry written with `reduction = true` divided by that count (a failing call fails
alike in both modes); and on a valid target, a row vector of at most
`prediction.n_rows` class indices in range, all four calls return. -/
theorem nll_mean_is_sum_divided
    (sumLoss meanLoss : NegativeLogLikelihood)
    (hsum : sumLoss.reduction = true) (hmean : meanLoss.reduction = false)
    (prediction : Mat ℚ) (target : Mat Int) (hn : 1 ≤ target.n_elem) :
    meanLoss.Forward prediction target
      = (sumLoss.Forward prediction target).map
          (Option.map (fun s => s / (target.n_elem : ℚ))) ∧
    meanLoss.Backward prediction target
      = (sumLoss.Backward prediction target).map
          (Mat.map (Option.map (fun g => g / (target.n_elem : ℚ)))) ∧
    (prediction.wf → target.wf → target.n_rows = 1 → target.n_cols ≤ prediction.n_rows →
      (∀ i, i < target.n_cols → 0 ≤ target.el i ∧ target.el i < prediction.n_cols) →
      ∃ (s : ℚ) (G : Mat ℚ),
        sumLoss.Forward prediction target = .ok (some s) ∧
        meanLoss.Forward prediction target = .ok (some (s / (target.n_elem : ℚ))) ∧
        sumLoss.Backward prediction target = .ok (G.map some) ∧
        meanLoss.Backward prediction target
          = .ok (G.map (fun g => some (g / (target.n_elem : ℚ)))) ∧
        G.sameShape prediction) := by
  have hn0 : target.n_elem ≠ 0 := by omega
  refine ⟨?_, ?_, ?_⟩
  · simp only [NegativeLogLikelihood.Forward, hsum, hmean]
    cases NegativeLogLikelihood.forwardLoop prediction target (List.range target.n_cols)
        (Mat.zeros target.n_rows target.n_cols) <;>
      simp [bind, Except.bind, pure, Except.pure, Except.map, divCount, hn0]
  · simp only [NegativeLogLikelihood.Backward, hsum, hmean]
    cases NegativeLogLikelihood.backwardLoop prediction target (List.range target.n_cols)
        (Mat.zeros prediction.n_rows prediction.n_cols) <;>
      simp [bind, Except.bind, pure, Except.pure, Except.map, divCount, hn0, Mat.map]
  · intro hP hT hrow hm hcls
    refine ⟨-(∑ i in Finset.range target.n_cols, prediction.el2 i (target.el i).toNat),
      ⟨prediction.n_rows, prediction.n_cols,
        writeAll (fun i => i + (target.el i).toNat * prediction.n_rows) (fun _ => -1)
          (List.range target.n_cols) (Mat.zeros prediction.n_rows prediction.n_cols).mem⟩,
      ?_, ?_, ?_, ?_, ⟨rfl, rfl⟩⟩
    · rw [nll_Forward_valid _ _ _ hP hT hrow hm hcls, hsum]; rfl
    · rw [nll_Forward_valid _ _ _ hP hT hrow hm hcls, hmean]
      simp [divCount, hn0]
    · rw [nll_Backward_valid _ _ _ hP hT hrow hm hcls, hsum]; rfl
    · rw [nll_Backward_valid _ _ _ hP hT hrow hm hcls, hmean]
      simp [divCount, hn0, Mat.map]

/-- Witness of C8: a 2x2 prediction and the target `[1, 0]`; the calls return. -/
theorem nll_mean_is_sum_divided_witness :
    ∃ (s : ℚ) (G : Mat ℚ),
      NegativeLogLikelihood.Forward (.new true) ⟨2, 2, [1, 2, 3, 4]⟩ ⟨1, 2, [1, 0]⟩
        = .ok (some s) ∧
      NegativeLogLikelihood.Forward (.new false) ⟨2, 2, [1, 2, 3, 4]⟩ ⟨1, 2, [1, 0]⟩
        = .ok (some (s / ((Mat.n_elem (⟨1, 2, [1, 0]⟩ : Mat Int) : Nat) : ℚ))) ∧
      NegativeLogLikelihood.Backward (.new true) ⟨2, 2, [1, 2, 3, 4]⟩ ⟨1, 2, [1, 0]⟩
        = .ok (G.map some) ∧
      NegativeLogLikelihood.Backward (.new false) ⟨2, 2, [1, 2, 3, 4]⟩ ⟨1, 2, [1, 0]⟩
        = .ok (G.map (fun g => some (g / ((Mat.n_elem (⟨1, 2, [1, 0]⟩ : Mat Int) : Nat) : ℚ)))) ∧
      G.sameShape (⟨2, 2, [1, 2, 3, 4]⟩ : Mat ℚ) :=
  (nll_mean_is_sum_divided (.new true) (.new false) rfl rfl
    ⟨2, 2, [1, 2, 3, 4]⟩ ⟨1, 2, [1, 0]⟩ (by decide)).2.2
    (by decide) (by decide) (by decide) (by decide) (by decide)

/-- Claim C9 as stated fails: for the prediction `[0, 0]` and the target `[1, 1]`
the sum of `max(1 - p_i * t_i, 0) ^ 2` is 2, and `Forward` of the (only kind of)
`SquaredHingeLoss` object returns 1, the sum divided by the element count. -/
theorem squaredHinge_forward_is_not_undivided_sum :
    squaredHingeSum ⟨1, 2, [0, 0]⟩ ⟨1, 2, [1, 1]⟩ = 2 ∧
    SquaredHingeLoss.Forward .new ⟨1, 2, [0, 0]⟩ ⟨1, 2, [1, 1]⟩ = .ok (some 1) ∧
    SquaredHingeLoss.Forward .new ⟨1, 2, [0, 0]⟩ ⟨1, 2, [1, 1]⟩
      ≠ .ok (some (squaredHingeSum ⟨1, 2, [0, 0]⟩ ⟨1, 2, [1, 1]⟩)) := by
  have h1 : squaredHingeSum ⟨1, 2, [0, 0]⟩ ⟨1, 2, [1, 1]⟩ = 2 := by
    simp [squaredHingeSum, Mat.n_elem, Finset.sum_range_succ, Mat.el]
    norm_num
  have h2 : SquaredHingeLoss.Forward .new ⟨1, 2, [0, 0]⟩ ⟨1, 2, [1, 1]⟩ = .ok (some 1) := by
    simp [SquaredHingeLoss.Forward, SquaredHingeLoss.temp, Mat.zipWith, Mat.map, bind,
      Except.bind, Mat.accu, divCount, Mat.n_elem, pure, Except.pure, Mat.maxOfColumns,
      Mat.column, Mat.listMax, List.range, List.range.loop]
  refine ⟨h1, h2, ?_⟩
  rw [h1, h2]
  intro h
  simp at h

/-! ## Auxiliary lemmas for the later claims -/

theorem tempEntry_ne_zero (t : ℚ) : tempEntry t ≠ 0 := by
  unfold tempEntry
  by_cases h : t = 0
  · simp [h]
  · simp [h]

theorem tempEntry_zeroToMinusOne (t : ℚ) :
    tempEntry (if t = 0 then -1 else t) = tempEntry t := by
  unfold tempEntry
  by_cases h : t = 0
  · simp [h]
  · simp [h]

theorem squaredHinge_temp_zeroToMinusOne (target : Mat ℚ) :
    SquaredHingeLoss.temp (zeroToMinusOne target) = SquaredHingeLoss.temp target := by
  rw [squaredHinge_temp_eq, squaredHinge_temp_eq]
  simp [zeroToMinusOne, Mat.map, tempEntry_zeroToMinusOne]

theorem squaredHinge_Backward_eq (self : SquaredHingeLoss) (prediction target : Mat ℚ)
    (hs : prediction.sameShape target) :
    self.Backward prediction target =
      .ok ⟨prediction.n_rows, prediction.n_cols,
        List.zipWith (fun b t => b * t)
          (List.zipWith (fun p q => if p < q then (1 : ℚ) else 0) prediction.mem
            ((target.mem.map tempEntry).map (fun t => 1 / t)))
          ((target.mem.map tempEntry).map (fun t => -t))⟩ := by
  obtain ⟨hr, hc⟩ := hs
  simp only [SquaredHingeLoss.Backward, squaredHinge_temp_eq, bind, Except.bind,
    Mat.zipWith, Mat.map, hr, hc, and_self, if_true]

theorem hingeEmbeddingTerms_eq_zipWith (xs ts : List ℚ) :
    hingeEmbeddingTerms xs ts = List.zipWith (fun x t => (1 - t) / 2 + x * t) xs ts := by
  unfold hingeEmbeddingTerms
  induction xs generalizing ts with
  | nil => simp
  | cons x xs ih =>
    cases ts with
    | nil => simp
    | cons t ts => simpa using ih ts

theorem hingeEmbedding_sum_of_labels (input target : Mat ℚ)
    (hi : input.wf) (ht : target.wf) (hs : input.sameShape target)
    (hlabel : ∀ k, k < input.n_elem → target.el k = 1 ∨ target.el k = -1) :
    (hingeEmbeddingTerms input.mem target.mem).sum = hingeEmbeddingSplitSum input target := by
  have hli : input.mem.length = input.n_elem := hi.1
  have hlt : target.mem.length = input.n_elem := by rw [ht.1, Mat.n_elem, hs.1, hs.2]
  rw [hingeEmbeddingTerms_eq_zipWith, list_sum_eq_sum_range, List.length_zipWith, hli, hlt,
    Nat.min_self]
  unfold hingeEmbeddingSplitSum
  rw [Finset.sum_filter, Finset.sum_filter, ← Finset.sum_add_distrib]
  apply Finset.sum_congr rfl
  intro k hk
  rw [Finset.mem_range] at hk
  rw [zipWith_getD _ _ _ _ (hli ▸ hk) (hlt ▸ hk)]
  have hx : input.mem.getD k 0 = input.el k := rfl
  have htk : target.mem.getD k 0 = target.el k := rfl
  rw [hx, htk]
  rcases hlabel k hk with h | h
  · rw [h]; norm_num
  · rw [h]; norm_num; ring

/-! ## Claims, continued -/

/-- Claim C11: for all valid inputs the shape of the `Backward` output equals the
shape of the prediction, for each of `HingeEmbeddingLoss::Backward`,
`NegativeLogLikelihood::Backward` and `SquaredHingeLoss::Backward`: the call returns
and the written gradient has `prediction.n_rows` rows and `prediction.n_cols`
columns, whatever buffer the caller passed in. Valid inputs are a same-shape target
for the two hinge losses, and a row vector of at most `prediction.n_rows` class
indices in `[0, prediction.n_cols)` for the negative log likelihood. -/
theorem backward_output_has_prediction_shape
    (hinge : HingeEmbeddingLoss) (nll : NegativeLogLikelihood) (squared : SquaredHingeLoss)
    (input labels : Mat ℚ) (hs : input.sameShape labels)
    (prediction : Mat ℚ) (target : Mat Int)
    (hP : prediction.wf) (hT : target.wf) (hrow : target.n_rows = 1)
    (hm : target.n_cols ≤ prediction.n_rows)
    (hcls : ∀ i, i < target.n_cols → 0 ≤ target.el i ∧ target.el i < prediction.n_cols)
    (buffer : Mat (Option ℚ)) (buffer2 : Mat ℚ) :
    (∃ G, hinge.BackwardInto input labels buffer = .ok G ∧
      G.n_rows = input.n_rows ∧ G.n_cols = input.n_cols) ∧
    (∃ G, nll.BackwardInto prediction target buffer = .ok G ∧
      G.n_rows = prediction.n_rows ∧ G.n_cols = prediction.n_cols) ∧
    (∃ G, squared.BackwardInto input labels buffer2 = .ok G ∧
      G.n_rows = input.n_rows ∧ G.n_cols = input.n_cols) := by
  refine ⟨?_, ?_, ?_⟩
  · rw [HingeEmbeddingLoss.BackwardInto, hingeEmbedding_Backward_eq]
    exact ⟨_, rfl, hs.1.symm, hs.2.symm⟩
  · rw [NegativeLogLikelihood.BackwardInto,
      nll_Backward_valid nll prediction target hP hT hrow hm hcls]
    exact ⟨_, rfl, rfl, rfl⟩
  · rw [SquaredHingeLoss.BackwardInto, squaredHinge_Backward_eq squared _ _ hs]
    exact ⟨_, rfl, rfl, rfl⟩

/-- Witness of C11: the 1x2 input `[3, 4]` with labels `[1, -1]`, a 2x2 prediction
with the class indices `[1, 0]`, and non-empty 3x1 buffers passed in. -/
theorem backward_output_has_prediction_shape_witness :
    (∃ G, HingeEmbeddingLoss.BackwardInto ⟨false⟩ ⟨1, 2, [3, 4]⟩ ⟨1, 2, [1, -1]⟩
        ⟨3, 1, [some 9, some 9, some 9]⟩ = .ok G ∧ G.n_rows = 1 ∧ G.n_cols = 2) ∧
    (∃ G, NegativeLogLikelihood.BackwardInto (.new false) ⟨2, 2, [1, 2, 3, 4]⟩
        ⟨1, 2, [1, 0]⟩ ⟨3, 1, [some 9, some 9, some 9]⟩ = .ok G ∧
      G.n_rows = 2 ∧ G.n_cols = 2) ∧
    (∃ G, SquaredHingeLoss.BackwardInto .new ⟨1, 2, [3, 4]⟩ ⟨1, 2, [1, -1]⟩
        ⟨3, 1, [9, 9, 9]⟩ = .ok G ∧ G.n_rows = 1 ∧ G.n_cols = 2) :=
  backward_output_has_prediction_shape ⟨false⟩ (.new false) .new
    ⟨1, 2, [3, 4]⟩ ⟨1, 2, [1, -1]⟩ (by decide)
    ⟨2, 2, [1, 2, 3, 4]⟩ ⟨1, 2, [1, 0]⟩ (by decide) (by decide) (by decide) (by decide)
    (by decide) ⟨3, 1, [some 9, some 9, some 9]⟩ ⟨3, 1, [9, 9, 9]⟩

/-- Claim C14: `SquaredHingeLoss` treats the label 0 as the label -1: for every
prediction and every same-shape target, replacing every entry of the target that
equals 0 by -1 changes neither the value returned by `Forward` nor any entry
written by `Backward`; both calls return, with the same results for both targets. -/
theorem squaredHinge_zero_label_is_minus_one (self : SquaredHingeLoss)
    (prediction target : Mat ℚ) (hs : prediction.sameShape target) :
    ∃ v G,
      self.Forward prediction target = .ok v ∧
      self.Forward prediction (zeroToMinusOne target) = .ok v ∧
      self.Backward prediction target = .ok G ∧
      self.Backward prediction (zeroToMinusOne target) = .ok G := by
  have hf : self.Forward prediction (zeroToMinusOne target)
      = self.Forward prediction target := by
    simp only [SquaredHingeLoss.Forward, squaredHinge_temp_zeroToMinusOne]
    rfl
  have hb : self.Backward prediction (zeroToMinusOne target)
      = self.Backward prediction target := by
    simp only [SquaredHingeLoss.Backward, squaredHinge_temp_zeroToMinusOne]
  rw [hf, hb, squaredHinge_Forward_eq self _ _ hs, squaredHinge_Backward_eq self _ _ hs]
  exact ⟨_, _, rfl, rfl, rfl, rfl⟩

/-- Witness of C14: prediction `[2, 0, -3]`, target `[0, 1, 0]`. -/
theorem squaredHinge_zero_label_is_minus_one_witness :
    ∃ v G,
      SquaredHingeLoss.Forward .new ⟨1, 3, [2, 0, -3]⟩ ⟨1, 3, [0, 1, 0]⟩ = .ok v ∧
      SquaredHingeLoss.Forward .new ⟨1, 3, [2, 0, -3]⟩ (zeroToMinusOne ⟨1, 3, [0, 1, 0]⟩)
        = .ok v ∧
      SquaredHingeLoss.Backward .new ⟨1, 3, [2, 0, -3]⟩ ⟨1, 3, [0, 1, 0]⟩ = .ok G ∧
      SquaredHingeLoss.Backward .new ⟨1, 3, [2, 0, -3]⟩ (zeroToMinusOne ⟨1, 3, [0, 1, 0]⟩)
        = .ok G :=
  squaredHinge_zero_label_is_minus_one .new ⟨1, 3, [2, 0, -3]⟩ ⟨1, 3, [0, 1, 0]⟩ (by decide)

/-- Claim C15: for targets in `{+1, -1}`, `HingeEmbeddingLoss::Forward` in sum mode is
the unclamped sum of `x_i` over the elements with `t_i = +1` plus `1 - x_i` over the
elements with `t_i = -1`, with no `max(0, .)` applied, so the result is negative for
some inputs: for the input `[-1]` and the target `[1]` it is `-1`. -/
theorem hingeEmbedding_forward_sum_is_unclamped (input target : Mat ℚ)
    (hi : input.wf) (ht : target.wf) (hs : input.sameShape target)
    (hlabel : ∀ k, k < input.n_elem → target.el k = 1 ∨ target.el k = -1) :
    HingeEmbeddingLoss.Forward ⟨true⟩ input target
      = .ok (some (hingeEmbeddingSplitSum input target)) ∧
    HingeEmbeddingLoss.Forward ⟨true⟩ ⟨1, 1, [-1]⟩ ⟨1, 1, [1]⟩ = .ok (some (-1)) := by
  constructor
  · rw [hingeEmbedding_Forward_eq _ _ _ hs,
      hingeEmbedding_sum_of_labels input target hi ht hs hlabel]
    rfl
  · simp [HingeEmbeddingLoss.Forward, Mat.zipWith, Mat.map, bind, Except.bind, pure,
      Except.pure, Mat.accu]

/-- Witness of C15: input `[3, 4]`, target `[1, -1]`. -/
theorem hingeEmbedding_forward_sum_is_unclamped_witness :
    HingeEmbeddingLoss.Forward ⟨true⟩ ⟨1, 2, [3, 4]⟩ ⟨1, 2, [1, -1]⟩
      = .ok (some (hingeEmbeddingSplitSum ⟨1, 2, [3, 4]⟩ ⟨1, 2, [1, -1]⟩)) ∧
    HingeEmbeddingLoss.Forward ⟨true⟩ ⟨1, 1, [-1]⟩ ⟨1, 1, [1]⟩ = .ok (some (-1)) :=
  hingeEmbedding_forward_sum_is_unclamped ⟨1, 2, [3, 4]⟩ ⟨1, 2, [1, -1]⟩
    (by decide) (by decide) (by decide)
    (by
      intro k hk
      have hk2 : k < 2 := hk
      interval_cases k <;> simp [Mat.el])

/-- Claim C16: `NegativeLogLikelihood` performs no out-of-bounds access on valid
input: for every prediction and every target row vector with `m` columns such that
`m <= prediction.n_rows` and every `target(i)` is an integer in
`[0, prediction.n_cols)`, every element access of `Forward` (`target(i)`, `loss(i)`,
`prediction(i, target(i))`) and of `Backward` (`loss(i, target(i))`) is within bounds
and both operations return without failing. The class-index assertion alone does not
ensure this: for the 1x2 prediction `[3, 4]` and the target `[0, 0]`, whose class
indices are in range, both operations fail on the row index 1. -/
theorem nll_no_out_of_bounds_on_valid_input (self : NegativeLogLikelihood)
    (prediction : Mat ℚ) (target : Mat Int)
    (hP : prediction.wf) (hT : target.wf) (hrow : target.n_rows = 1)
    (hm : target.n_cols ≤ prediction.n_rows)
    (hcls : ∀ i, i < target.n_cols → 0 ≤ target.el i ∧ target.el i < prediction.n_cols) :
    (∀ i, i < target.n_cols →
      i < target.n_elem ∧
      i < (Mat.zeros target.n_rows target.n_cols).n_elem ∧
      i < prediction.n_rows ∧
      toSizeT (target.el i) < prediction.n_cols ∧
      i + toSizeT (target.el i) * prediction.n_rows < prediction.mem.length) ∧
    (∃ v, self.Forward prediction target = .ok v) ∧
    (∃ G, self.Backward prediction target = .ok G) ∧
    NegativeLogLikelihood.Forward (.new true) ⟨1, 2, [3, 4]⟩ ⟨1, 2, [0, 0]⟩
      = .error .outOfBounds ∧
    NegativeLogLikelihood.Backward (.new true) ⟨1, 2, [3, 4]⟩ ⟨1, 2, [0, 0]⟩
      = .error .outOfBounds := by
  refine ⟨?_, ?_, ?_, ?_, ?_⟩
  · intro i hi
    have hcols := n_cols_lt_of_rows_pos prediction hP (by omega)
    obtain ⟨hz, hzlt⟩ := toSizeT_of_inRange (target.el i) prediction.n_cols hcols
      (hcls i hi).1 (hcls i hi).2
    have hir : i < prediction.n_rows := by omega
    refine ⟨by simp [Mat.n_elem, hrow, hi], by simp [Mat.zeros, Mat.n_elem, hrow, hi], hir,
      by rw [hz]; exact hzlt, ?_⟩
    rw [hz, hP.1]
    exact offset_lt _ _ _ _ hir hzlt
  · rw [nll_Forward_valid self prediction target hP hT hrow hm hcls]
    exact ⟨_, rfl⟩
  · rw [nll_Backward_valid self prediction target hP hT hrow hm hcls]
    exact ⟨_, rfl⟩
  · simp [NegativeLogLikelihood.Forward, NegativeLogLikelihood.forwardLoop, List.range,
      List.range.loop, Mat.get1, Mat.get2, Mat.set1, Mat.zeros, Mat.n_elem, Log.Assert, toSizeT,
      bind, Except.bind]
  · simp [NegativeLogLikelihood.Backward, NegativeLogLikelihood.backwardLoop, List.range,
      List.range.loop, Mat.get1, Mat.set2, Mat.zeros, Mat.n_elem, Log.Assert, toSizeT,
      bind, Except.bind]

/-- Witness of C16: mean mode, a 2x2 prediction and the target `[1, 0]`. -/
theorem nll_no_out_of_bounds_on_valid_input_witness :
    (∃ v, NegativeLogLikelihood.Forward (.new false) ⟨2, 2, [1, 2, 3, 4]⟩ ⟨1, 2, [1, 0]⟩
      = .ok v) ∧
    (∃ G, NegativeLogLikelihood.Backward (.new false) ⟨2, 2, [1, 2, 3, 4]⟩ ⟨1, 2, [1, 0]⟩
      = .ok G) :=
  ⟨(nll_no_out_of_bounds_on_valid_input (.new false) ⟨2, 2, [1, 2, 3, 4]⟩ ⟨1, 2, [1, 0]⟩
      (by decide) (by decide) (by decide) (by decide) (by decide)).2.1,
    (nll_no_out_of_bounds_on_valid_input (.new false) ⟨2, 2, [1, 2, 3, 4]⟩ ⟨1, 2, [1, 0]⟩
      (by decide) (by decide) (by decide) (by decide) (by decide)).2.2.1⟩

/-- Claim C17: the divisor in `SquaredHingeLoss::Backward` is never zero: for every
target, with arbitrary entries, 0 included, `temp = target - (target == 0)` is
computed without failure, has the shape of the target, and every entry of it is
non-zero, so the element-wise division `1 / temp` never divides by zero. -/
theorem squaredHinge_temp_never_zero (target : Mat ℚ) :
    ∃ M, SquaredHingeLoss.temp target = .ok M ∧
      M.n_rows = target.n_rows ∧ M.n_cols = target.n_cols ∧
      M.mem.length = target.mem.length ∧
      ∀ x ∈ M.mem, x ≠ 0 := by
  refine ⟨_, squaredHinge_temp_eq target, rfl, rfl, by simp, ?_⟩
  intro x hx
  simp only [List.mem_map] at hx
  obtain ⟨t, _, rfl⟩ := hx
  exact tempEntry_ne_zero t

/-! ## Claims, revised -/

/-- Claim C5, amended: `NegativeLogLikelihood` accepts as target a class index in the
zero-based range `[0, C)`: for every prediction with `C = prediction.n_cols` classes
and every target row vector whose entries all lie between 0 and `C - 1` inclusive,
one entry per data point (row) of the prediction, `Forward` and `Backward` return a
value and so do not fail with the `Target class out of range.` assertion. -/
theorem nll_zero_based_index_is_accepted (self : NegativeLogLikelihood)
    (prediction : Mat ℚ) (target : Mat Int)
    (hP : prediction.wf) (hT : target.wf) (hrow : target.n_rows = 1)
    (hpoints : target.n_cols = prediction.n_rows)
    (hcls : ∀ i, i < target.n_cols → 0 ≤ target.el i ∧ target.el i < prediction.n_cols) :
    (∃ v, self.Forward prediction target = .ok v) ∧
    (∃ G, self.Backward prediction target = .ok G) ∧
    self.Forward prediction target ≠ .error (.assertFailed "Target class out of range.") ∧
    self.Backward prediction target
      ≠ .error (.assertFailed "Target class out of range.") := by
  have hm : target.n_cols ≤ prediction.n_rows := by omega
  have hf := nll_Forward_valid self prediction target hP hT hrow hm hcls
  have hb := nll_Backward_valid self prediction target hP hT hrow hm hcls
  refine ⟨⟨_, hf⟩, ⟨_, hb⟩, ?_, ?_⟩
  · rw [hf]; intro h; cases h
  · rw [hb]; intro h; cases h

/-- Witness of the amended C5: a 2x2 prediction (two data points, two classes) and
the target `[1, 0]`, which uses the index 0. -/
theorem nll_zero_based_index_is_accepted_witness :
    (∃ v, NegativeLogLikelihood.Forward (.new true) ⟨2, 2, [1, 2, 3, 4]⟩ ⟨1, 2, [1, 0]⟩
      = .ok v) ∧
    (∃ G, NegativeLogLikelihood.Backward (.new true) ⟨2, 2, [1, 2, 3, 4]⟩ ⟨1, 2, [1, 0]⟩
      = .ok G) ∧
    NegativeLogLikelihood.Forward (.new true) ⟨2, 2, [1, 2, 3, 4]⟩ ⟨1, 2, [1, 0]⟩
      ≠ .error (.assertFailed "Target class out of range.") ∧
    NegativeLogLikelihood.Backward (.new true) ⟨2, 2, [1, 2, 3, 4]⟩ ⟨1, 2, [1, 0]⟩
      ≠ .error (.assertFailed "Target class out of range.") :=
  nll_zero_based_index_is_accepted (.new true) ⟨2, 2, [1, 2, 3, 4]⟩ ⟨1, 2, [1, 0]⟩
    (by decide) (by decide) (by decide) (by decide) (by decide)

/-- Claim C9, amended: `SquaredHingeLoss` holds no reduction flag (its state is the
output parameter alone), and its `Forward` always divides by the element count: for
every prediction of one row with `n >= 1` elements and same-shape target in which no
element lies beyond the margin (`p_i * temp_i <= 1`, `temp_i = t_i - (t_i == 0)`),
`Forward` returns the sum over all elements of `max(1 - p_i * temp_i, 0) ^ 2` divided
by `n`. -/
theorem squaredHinge_forward_divides_by_count (self : SquaredHingeLoss)
    (prediction target : Mat ℚ)
    (hp : prediction.wf) (ht : target.wf) (hs : prediction.sameShape target)
    (h1 : prediction.n_rows = 1) (hn : 1 ≤ prediction.n_elem)
    (hmargin : ∀ k, k < prediction.n_elem →
      prediction.el k * tempEntry (target.el k) ≤ 1) :
    self.Forward prediction target =
      .ok (some ((∑ k in Finset.range prediction.n_elem,
          (max (1 - prediction.el k * tempEntry (target.el k)) 0) ^ 2)
        / (prediction.n_elem : ℚ))) := by
  rw [squaredHinge_Forward_one_row self _ _ hp ht hs h1]
  have hcount : target.n_elem = prediction.n_elem := by
    rw [Mat.n_elem, Mat.n_elem, hs.1, hs.2]
  have hn0 : prediction.n_elem ≠ 0 := by omega
  have hsum : (∑ k in Finset.range prediction.n_elem,
      (1 - prediction.el k * tempEntry (target.el k)) ^ 2)
      = ∑ k in Finset.range prediction.n_elem,
        (max (1 - prediction.el k * tempEntry (target.el k)) 0) ^ 2 := by
    apply Finset.sum_congr rfl
    intro k hk
    rw [Finset.mem_range] at hk
    have := hmargin k hk
    rw [max_eq_left (by linarith)]
  rw [hsum, hcount]
  simp [divCount, hn0]

/-- Witness of the amended C9: prediction `[0, 1/2]`, target `[1, 0]`. -/
theorem squaredHinge_forward_divides_by_count_witness :
    SquaredHingeLoss.Forward .new ⟨1, 2, [0, 1 / 2]⟩ ⟨1, 2, [1, 0]⟩ =
      .ok (some ((∑ k in Finset.range (Mat.n_elem (⟨1, 2, [0, 1 / 2]⟩ : Mat ℚ)),
          (max (1 - Mat.el (⟨1, 2, [0, 1 / 2]⟩ : Mat ℚ) k
            * tempEntry (Mat.el (⟨1, 2, [1, 0]⟩ : Mat ℚ) k)) 0) ^ 2)
        / ((Mat.n_elem (⟨1, 2, [0, 1 / 2]⟩ : Mat ℚ) : Nat) : ℚ))) :=
  squaredHinge_forward_divides_by_count .new ⟨1, 2, [0, 1 / 2]⟩ ⟨1, 2, [1, 0]⟩
    (by decide) (by decide) (by decide) (by decide) (by decide)
    (by
      intro k hk
      have hk2 : k < 2 := hk
      interval_cases k <;> norm_num [Mat.el, tempEntry])

/-- Claim C10, evaluated on the code: on perfectly classified non-empty data
`SquaredHingeLoss::Forward` does not yield 0. The call `arma::max(X, 0.)` takes the
maximum of each column and clamps nothing, so a negative hinge `1 - p * t` is squared
as it is: for prediction `[3]` and target `[1]` the result is `(1 - 3) ^ 2 = 4`, and
for prediction `[3, -2]` and target `[1, -1]` it is `(4 + 1) / 2 = 5 / 2`. -/
theorem squaredHinge_forward_nonzero_on_perfect :
    SquaredHingeLoss.Forward .new ⟨1, 1, [3]⟩ ⟨1, 1, [1]⟩ = .ok (some 4) ∧
    SquaredHingeLoss.Forward .new ⟨1, 2, [3, -2]⟩ ⟨1, 2, [1, -1]⟩ = .ok (some (5 / 2)) := by
  constructor
  · simp [SquaredHingeLoss.Forward, SquaredHingeLoss.temp, Mat.zipWith, Mat.map, bind,
      Except.bind, Mat.accu, divCount, Mat.n_elem, pure, Except.pure, Mat.maxOfColumns,
      Mat.column, Mat.listMax, List.range, List.range.loop]
    norm_num
  · simp [SquaredHingeLoss.Forward, SquaredHingeLoss.temp, Mat.zipWith, Mat.map, bind,
      Except.bind, Mat.accu, divCount, Mat.n_elem, pure, Except.pure, Mat.maxOfColumns,
      Mat.column, Mat.listMax, List.range, List.range.loop]
    norm_num

/-- Claim C12, evaluated on the code: `SquaredHingeLoss::Forward` is not
`(1 / n) * sum of max(0, 1 - t_i * p_i) ^ 2`. For the 1x2 prediction `[-3, 2]` and
target `[-1, 1]` the formula gives 0 and the code returns `(4 + 1) / 2 = 5 / 2`; for
the 2x1 prediction `(0, 0)` and target `(1, 1)` the formula gives 1 and the code
returns `1 / 2`, the square of the one column maximum divided by 2. -/
theorem squaredHinge_forward_differs_from_squared_hinge_loss :
    (1 / ((Mat.n_elem (⟨1, 2, [-3, 2]⟩ : Mat ℚ) : Nat) : ℚ))
      * squaredHingeSum ⟨1, 2, [-3, 2]⟩ ⟨1, 2, [-1, 1]⟩ = 0 ∧
    SquaredHingeLoss.Forward .new ⟨1, 2, [-3, 2]⟩ ⟨1, 2, [-1, 1]⟩ = .ok (some (5 / 2)) ∧
    (1 / ((Mat.n_elem (⟨2, 1, [0, 0]⟩ : Mat ℚ) : Nat) : ℚ))
      * squaredHingeSum ⟨2, 1, [0, 0]⟩ ⟨2, 1, [1, 1]⟩ = 1 ∧
    SquaredHingeLoss.Forward .new ⟨2, 1, [0, 0]⟩ ⟨2, 1, [1, 1]⟩ = .ok (some (1 / 2)) := by
  refine ⟨?_, ?_, ?_, ?_⟩
  · simp [squaredHingeSum, Mat.n_elem, Finset.sum_range_succ, Mat.el]
  · simp [SquaredHingeLoss.Forward, SquaredHingeLoss.temp, Mat.zipWith, Mat.map, bind,
      Except.bind, Mat.accu, divCount, Mat.n_elem, pure, Except.pure, Mat.maxOfColumns,
      Mat.column, Mat.listMax, List.range, List.range.loop]
    norm_num
  · simp [squaredHingeSum, Mat.n_elem, Finset.sum_range_succ, Mat.el]
    norm_num
  · simp [SquaredHingeLoss.Forward, SquaredHingeLoss.temp, Mat.zipWith, Mat.map, bind,
      Except.bind, Mat.accu, divCount, Mat.n_elem, pure, Except.pure, Mat.maxOfColumns,
      Mat.column, Mat.listMax, List.range, List.range.loop]

/-- Claim C13, evaluated on the code: with the label `-1` the gradient written by
`SquaredHingeLoss::Backward` is not active where the loss is. For prediction `[0]` and
target `[-1]`, where `p * t = 0 < 1`, `Forward` returns 1, so the element contributes
to the loss, and `Backward` writes 0. For prediction `[-2]` and target `[-1]`, where
`p * t = 2 >= 1`, `Backward` writes 1 and not 0. -/
theorem squaredHinge_backward_inactive_where_loss_is_active :
    (0 : ℚ) * (-1) < 1 ∧
    SquaredHingeLoss.Forward .new ⟨1, 1, [0]⟩ ⟨1, 1, [-1]⟩ = .ok (some 1) ∧
    SquaredHingeLoss.Backward .new ⟨1, 1, [0]⟩ ⟨1, 1, [-1]⟩ = .ok ⟨1, 1, [0]⟩ ∧
    (1 : ℚ) ≤ (-2) * (-1) ∧
    SquaredHingeLoss.Backward .new ⟨1, 1, [-2]⟩ ⟨1, 1, [-1]⟩ = .ok ⟨1, 1, [1]⟩ := by
  refine ⟨by norm_num, ?_, ?_, by norm_num, ?_⟩
  · simp [SquaredHingeLoss.Forward, SquaredHingeLoss.temp, Mat.zipWith, Mat.map, bind,
      Except.bind, Mat.accu, divCount, Mat.n_elem, pure, Except.pure, Mat.maxOfColumns,
      Mat.column, Mat.listMax, List.range, List.range.loop]
  · simp [SquaredHingeLoss.Backward, SquaredHingeLoss.temp, Mat.zipWith, Mat.map, bind,
      Except.bind]
  · simp [SquaredHingeLoss.Backward, SquaredHingeLoss.temp, Mat.zipWith, Mat.map, bind,
      Except.bind]
    norm_num

end mlpack
